import Mathlib

/-!
Verification of the mempool transaction-selection engine (`selectTxs` in
`src/pages/Mempool.tsx`).

The TypeScript source is embedded shallowly:

* `Tx` mirrors `type Tx = { id; sender; gas; price; nonce; ageSec }`; the
  JavaScript numbers are modelled as exact integers (`Int`), which agrees
  with the source on every integer input.
* `Array.prototype.sort` is stable (ES2019); a stable sort under a total
  preorder comparator has a unique result, so it is modelled by
  `List.insertionSort`, which is stable.
* The object produced by `groupBy(eligible, t => t.sender)` is iterated by
  `Object.entries` per ECMA-262 `[[OwnPropertyKeys]]`: array-index-like
  keys (canonical decimal strings below `2^32 - 1`, see `isArrayIndexKey`)
  come first in ascending numeric order, and all remaining string keys
  follow in insertion order, i.e. in order of each sender's first
  occurrence.  `groupBySender` below produces the association list with
  keys in first-occurrence order and, for key `s`, the value
  `l.filter (·.sender = s)`.  The key SET and each group's value agree
  with the program for every input; the key ORDER agrees exactly when no
  sender is an array-index-like string (such as the page's `0x…` senders).
  The only order-sensitive theorem, the tie-break order of equal-price
  heads, is therefore stated under that restriction; every other theorem
  is insensitive to the heads' tie order.
* The `while`/`for` loop of `selectTxs` becomes `actHead` (one head step,
  lines 103–119), `passRec` (the `for` pass, line 101) and `loopRec` (the
  outer `while`, line 99) driven by explicit fuel; `loopFuel` passes are
  provably enough (see the termination theorem).
* `Math.round(sum / len)` on a rational `sum / len` equals
  `⌊(2*sum + len) / (2*len)⌋`, which for a positive denominator is the
  Euclidean division `(2*sum + len) / (2*len)` on `Int`.
* The execution additionally records a ghost event log (`Ev`): the log is
  write-only and never influences the computation; it only lets theorems
  speak about the moment a transaction was admitted or skipped.
-/

/-- Mirrors `type Tx = { id: string; sender: string; gas: number; price:
number; nonce: number; ageSec: number }` (Mempool.tsx line 6). -/
structure Tx where
  id : String
  sender : String
  gas : Int
  price : Int
  nonce : Int
  ageSec : Int
deriving DecidableEq

/-- Comparator `byPriceDesc = (a, b) => b.price - a.price || a.nonce - b.nonce`
(line 81), read as the total preorder "a may come before b". -/
def priceDescRel (a b : Tx) : Prop :=
  b.price < a.price ∨ (a.price = b.price ∧ a.nonce ≤ b.nonce)

instance : DecidableRel priceDescRel := fun a b =>
  inferInstanceAs (Decidable (b.price < a.price ∨ (a.price = b.price ∧ a.nonce ≤ b.nonce)))

instance : IsTotal Tx priceDescRel := by
  constructor
  intro a b
  rcases lt_trichotomy a.price b.price with h | h | h
  · exact Or.inr (Or.inl h)
  · rcases le_total a.nonce b.nonce with hn | hn
    · exact Or.inl (Or.inr ⟨h, hn⟩)
    · exact Or.inr (Or.inr ⟨h.symm, hn⟩)
  · exact Or.inl (Or.inl h)

instance : IsTrans Tx priceDescRel := by
  constructor
  rintro a b c (h₁ | ⟨e₁, n₁⟩) (h₂ | ⟨e₂, n₂⟩)
  · exact Or.inl (h₂.trans h₁)
  · exact Or.inl (e₂ ▸ h₁)
  · exact Or.inl (e₁ ▸ h₂)
  · exact Or.inr ⟨e₁.trans e₂, n₁.trans n₂⟩

/-- Comparator `(a, b) => a.nonce - b.nonce` (line 90). -/
def nonceRel (a b : Tx) : Prop := a.nonce ≤ b.nonce

instance : DecidableRel nonceRel := fun a b =>
  inferInstanceAs (Decidable (a.nonce ≤ b.nonce))

instance : IsTotal Tx nonceRel := ⟨fun a b => le_total a.nonce b.nonce⟩

instance : IsTrans Tx nonceRel := ⟨fun _ _ _ h₁ h₂ => le_trans h₁ h₂⟩

/-- Models `list[0]?.price ?? 0` (line 97). -/
def headPriceD (l : List Tx) : Int := ((l.head?.map Tx.price).getD 0)

/-- Models `list[0]?.nonce ?? 0` (line 91). -/
def headNonceD (l : List Tx) : Int := ((l.head?.map Tx.nonce).getD 0)

/-- The per-sender head record built at line 96:
`{ s, idx: 0, list }`; `idx` is the only mutable field. -/
structure Head where
  s : String
  idx : Nat
  list : List Tx
deriving DecidableEq

/-- Comparator `(A, B) => (B.list[0]?.price ?? 0) - (A.list[0]?.price ?? 0)`
used to sort the heads once (line 97).  Note it compares price only. -/
def headRel (x y : Head) : Prop := headPriceD y.list ≤ headPriceD x.list

instance : DecidableRel headRel := fun x y =>
  inferInstanceAs (Decidable (headPriceD y.list ≤ headPriceD x.list))

instance : IsTotal Head headRel := ⟨fun x y => le_total (headPriceD y.list) (headPriceD x.list)⟩

instance : IsTrans Head headRel := ⟨fun _ _ _ h₁ h₂ => le_trans h₂ h₁⟩

/-- Group of `l` under key `s` in an association list. -/
def groupGet (s : String) : List (String × List Tx) → List Tx
  | [] => []
  | (s', g) :: rest => if s' = s then g else groupGet s rest

/-- Remove the entry (entries) keyed `s`. -/
def groupErase (s : String) : List (String × List Tx) → List (String × List Tx)
  | [] => []
  | (s', g) :: rest => if s' = s then groupErase s rest else (s', g) :: groupErase s rest

/-- Models `groupBy(eligible, t => t.sender)` (lines 82–83, 89): an object
whose value at `s` is the sublist of elements with sender `s`, in list
order.  The recursion lists the keys in first-occurrence order, which
matches `Object.entries` exactly when no key is an ECMA-262
array-index-like string (see `isArrayIndexKey`); for array-index-like keys
the program would list those keys first, ascending numerically.  Theorems
about the heads' tie ORDER are therefore restricted to non-index senders;
all other theorems only use the key set and the groups' values, which are
the same in both regimes. -/
def groupBySender : List Tx → List (String × List Tx)
  | [] => []
  | t :: ts =>
    let rest := groupBySender ts
    (t.sender, t :: groupGet t.sender rest) :: groupErase t.sender rest

/-- Models `nextNonce.get(s)` with the `!` assertion relaxed to a default
(the lookup is always present in the algorithm). -/
def lookupNN (s : String) : List (String × Int) → Int
  | [] => 0
  | (s', v) :: rest => if s' = s then v else lookupNN s rest

/-- Models `nextNonce.set(s, v)`: replace in place, or append for a new key. -/
def setNN (s : String) (v : Int) : List (String × Int) → List (String × Int)
  | [] => [(s, v)]
  | (s', v') :: rest => if s' = s then (s, v) :: rest else (s', v') :: setNN s v rest

/-- Mutable scalar state of the selection loop: `nextNonce`, `picked`,
`gasLeft` (lines 88, 93, 94). -/
structure St where
  nn : List (String × Int)
  picked : List Tx
  gasLeft : Int
deriving DecidableEq

/-- Ghost events: a transaction was admitted (lines 108–113) or permanently
skipped for gas (lines 115–117), together with a snapshot of the full heads
list and the state just before the action. -/
inductive Ev where
  | adm (t : Tx) (heads : List Head) (st : St)
  | skp (sndr : String) (t : Tx) (heads : List Head) (st : St)

/-- Sender admitted by an `adm` event. -/
def evAdmSender : Ev → Option String
  | .adm t _ _ => some t.sender
  | .skp _ _ _ _ => none

/-- Sender whose head was gas-skipped by a `skp` event. -/
def evSkpSender : Ev → Option String
  | .adm _ _ _ => none
  | .skp s _ _ _ => some s

/-- One iteration of the head body (lines 103–119).  The inner `while`
exits on every branch, so it is a single step: look at `list[idx]`; stop if
the nonce is not the expected one; otherwise admit if the gas fits, else
advance past the head permanently.  Returns the updated head, state, and
what happened (`some (true, tx)` = admitted, `some (false, tx)` = skipped,
`none` = no progress). -/
def actHead (st : St) (h : Head) : Head × St × Option (Bool × Tx) :=
  match h.list[h.idx]? with
  | none => (h, st, none)
  | some tx =>
    let expected := lookupNN h.s st.nn
    if tx.nonce ≠ expected then (h, st, none)
    else if tx.gas ≤ st.gasLeft then
      (⟨h.s, h.idx + 1, h.list⟩,
       ⟨setNN h.s (expected + 1) st.nn, st.picked ++ [tx], st.gasLeft - tx.gas⟩,
       some (true, tx))
    else
      (⟨h.s, h.idx + 1, h.list⟩, st, some (false, tx))

/-- Ghost event(s) recorded for one head action. -/
def evFor (h : Head) (full : List Head) (st : St) : Option (Bool × Tx) → List Ev
  | some (true, t) => [Ev.adm t full st]
  | some (false, t) => [Ev.skp h.s t full st]
  | none => []

/-- One pass of the `for` loop over the heads (lines 101–120).  `pre` is a
ghost parameter holding the (already updated) heads before the current
suffix, used only for event snapshots; the loop condition
`picked.length < maxTxs && gasLeft > 0` is re-checked before every head. -/
def passRec (maxTxs : Int) (pre : List Head) (rest : List Head) (st : St) (prog : Bool)
    (log : List Ev) : List Head × St × Bool × List Ev :=
  match rest with
  | [] => ([], st, prog, log)
  | h :: tl =>
    if (st.picked.length : Int) < maxTxs ∧ 0 < st.gasLeft then
      let a := actHead st h
      let r := passRec maxTxs (pre ++ [a.1]) tl a.2.1 (prog || a.2.2.isSome)
        (log ++ evFor h (pre ++ h :: tl) st a.2.2)
      (a.1 :: r.1, r.2)
    else (h :: tl, st, prog, log)

/-- The outer `while` (lines 99–122), driven by fuel: run a pass; stop when
the loop condition fails or a full pass makes no progress. -/
def loopRec (maxTxs : Int) : Nat → List Head → St → List Ev → List Head × St × List Ev
  | 0, heads, st, log => (heads, st, log)
  | fuel + 1, heads, st, log =>
    if (st.picked.length : Int) < maxTxs ∧ 0 < st.gasLeft then
      let r := passRec maxTxs [] heads st false log
      if r.2.2.1 then loopRec maxTxs fuel r.1 r.2.1 r.2.2.2 else (r.1, r.2.1, r.2.2.2)
    else (heads, st, log)

/-- Input record of `selectTxs` (line 85). -/
structure SelectParams where
  txs : List Tx
  baseFee : Int
  maxGas : Int
  maxTxs : Int

/-- Output record of `selectTxs` (line 126). -/
structure SelectionResult where
  picked : List Tx
  gasUsed : Int
  avgPrice : Int
  eligibleCount : Nat
deriving DecidableEq

/-- Models `txs.filter(t => t.price >= baseFee).sort(byPriceDesc)` (line 87). -/
def eligibleOf (txs : List Tx) (baseFee : Int) : List Tx :=
  List.insertionSort priceDescRel (txs.filter (fun t => baseFee ≤ t.price))

/-- The grouped, nonce-sorted per-sender queues (lines 89–90). -/
def senderLists (txs : List Tx) (baseFee : Int) : List (String × List Tx) :=
  (groupBySender (eligibleOf txs baseFee)).map
    (fun g => (g.1, List.insertionSort nonceRel g.2))

/-- Models `for (const [s, list] of ...) nextNonce.set(s, list[0]?.nonce ?? 0)`
(line 91). -/
def initNN (txs : List Tx) (baseFee : Int) : List (String × Int) :=
  (senderLists txs baseFee).map (fun g => (g.1, headNonceD g.2))

/-- The heads array after its one-time sort by initial head price
(lines 96–97). -/
def headsInit (txs : List Tx) (baseFee : Int) : List Head :=
  List.insertionSort headRel ((senderLists txs baseFee).map (fun g => ⟨g.1, 0, g.2⟩))

/-- Fuel measure: total number of not-yet-passed head positions. -/
def measureHeads (heads : List Head) : Nat :=
  (heads.map (fun h => h.list.length - h.idx)).sum

/-- Fuel that provably suffices for the loop to reach its fixed point. -/
def loopFuel (p : SelectParams) : Nat :=
  measureHeads (headsInit p.txs p.baseFee) + 1

/-- The full run of the selection loop at a given fuel. -/
def selectRunFuel (p : SelectParams) (fuel : Nat) : List Head × St × List Ev :=
  loopRec p.maxTxs fuel (headsInit p.txs p.baseFee)
    ⟨initNN p.txs p.baseFee, [], p.maxGas⟩ []

/-- The full run of the selection loop. -/
def selectRun (p : SelectParams) : List Head × St × List Ev :=
  selectRunFuel p (loopFuel p)

/-- Sum of `gas` over a list (line 124). -/
def sumGas (l : List Tx) : Int := (l.map Tx.gas).sum

/-- Sum of `price` over a list (line 125). -/
def sumPrice (l : List Tx) : Int := (l.map Tx.price).sum

/-- Models `selectTxs` (lines 85–127).  `avgPrice` is
`picked.length ? Math.round(sumPrice / picked.length) : 0`; for integers,
`Math.round(s / n) = ⌊s / n + 1 / 2⌋ = (2 * s + n) / (2 * n)` in Euclidean
integer division. -/
def selectTxs (p : SelectParams) : SelectionResult :=
  let r := selectRun p
  let picked := r.2.1.picked
  ⟨picked,
   sumGas picked,
   if picked.length = 0 then 0
   else (2 * sumPrice picked + picked.length) / (2 * (picked.length : Int)),
   (eligibleOf p.txs p.baseFee).length⟩

/-- The event log of a run. -/
def selectLog (p : SelectParams) : List Ev := (selectRun p).2.2

/-- The nonce-ascending list of a sender's eligible transactions, exactly
as the algorithm builds it (filter at line 87, group at line 89, nonce sort
at line 90). -/
def senderQueue (txs : List Tx) (baseFee : Int) (s : String) : List Tx :=
  List.insertionSort nonceRel ((eligibleOf txs baseFee).filter (fun t => t.sender = s))

/-- The admitted transactions of sender `s`, in admission order. -/
def pickedS (s : String) (l : List Tx) : List Tx := l.filter (fun t => t.sender = s)

/-- How many transactions of sender `s` are in `l`. -/
def countS (s : String) (l : List Tx) : Nat := (pickedS s l).length

/-! ### Association-list lemmas -/

theorem lookupNN_setNN_same (s : String) (v : Int) :
    ∀ m : List (String × Int), lookupNN s (setNN s v m) = v := by
  intro m
  induction m with
  | nil => simp [setNN, lookupNN]
  | cons e rest ih =>
    by_cases h : e.1 = s
    · simp [setNN, h, lookupNN]
    · simp [setNN, h, lookupNN, ih]

theorem lookupNN_setNN_ne (s s' : String) (v : Int) (hne : s ≠ s') :
    ∀ m : List (String × Int), lookupNN s' (setNN s v m) = lookupNN s' m := by
  intro m
  induction m with
  | nil => simp [setNN, lookupNN, hne]
  | cons e rest ih =>
    by_cases h : e.1 = s
    · simp [setNN, h, lookupNN, hne]
    · simp [setNN, h, lookupNN, ih]

theorem groupGet_groupErase_ne (s k : String) (hne : s ≠ k) :
    ∀ m : List (String × List Tx), groupGet s (groupErase k m) = groupGet s m := by
  intro m
  induction m with
  | nil => rfl
  | cons e rest ih =>
    show groupGet s (if e.1 = k then groupErase k rest else (e.1, e.2) :: groupErase k rest)
      = if e.1 = s then e.2 else groupGet s rest
    by_cases h : e.1 = k
    · have h2 : ¬ e.1 = s := fun h2 => hne (h2 ▸ h)
      rw [if_pos h, if_neg h2, ih]
    · rw [if_neg h]
      show (if e.1 = s then e.2 else groupGet s (groupErase k rest)) = _
      by_cases h2 : e.1 = s
      · rw [if_pos h2, if_pos h2]
      · rw [if_neg h2, if_neg h2, ih]

theorem groupErase_sublist (k : String) :
    ∀ m : List (String × List Tx), (groupErase k m).Sublist m := by
  intro m
  induction m with
  | nil => simp [groupErase]
  | cons e rest ih =>
    show (if e.1 = k then groupErase k rest else (e.1, e.2) :: groupErase k rest).Sublist
      (e :: rest)
    by_cases h : e.1 = k
    · rw [if_pos h]
      exact ih.cons e
    · rw [if_neg h]
      exact ih.cons₂ e

theorem not_mem_keys_groupErase (k : String) :
    ∀ m : List (String × List Tx), k ∉ (groupErase k m).map Prod.fst := by
  intro m
  induction m with
  | nil => simp [groupErase]
  | cons e rest ih =>
    show k ∉ (if e.1 = k then groupErase k rest else (e.1, e.2) :: groupErase k rest).map Prod.fst
    by_cases h : e.1 = k
    · rw [if_pos h]
      exact ih
    · rw [if_neg h]
      intro hmem
      rcases List.mem_cons.mp hmem with h' | h'
      · exact h h'.symm
      · exact ih h'

theorem mem_keys_groupErase {k s : String} (hne : s ≠ k) :
    ∀ m : List (String × List Tx),
      s ∈ (groupErase k m).map Prod.fst ↔ s ∈ m.map Prod.fst := by
  intro m
  induction m with
  | nil => simp [groupErase]
  | cons e rest ih =>
    show s ∈ (if e.1 = k then groupErase k rest
      else (e.1, e.2) :: groupErase k rest).map Prod.fst ↔ _
    by_cases h : e.1 = k
    · rw [if_pos h, ih]
      simp only [List.map_cons, List.mem_cons]
      constructor
      · exact Or.inr
      · rintro (h' | h')
        · exact absurd (h'.trans h) hne
        · exact h'
    · rw [if_neg h]
      simp only [List.map_cons, List.mem_cons]
      rw [ih]

theorem groupGet_groupBySender (s : String) :
    ∀ l : List Tx, groupGet s (groupBySender l) = l.filter (fun t => t.sender = s) := by
  intro l
  induction l with
  | nil => rfl
  | cons t ts ih =>
    show groupGet s ((t.sender, t :: groupGet t.sender (groupBySender ts)) ::
      groupErase t.sender (groupBySender ts)) = _
    show (if t.sender = s then t :: groupGet t.sender (groupBySender ts)
      else groupGet s (groupErase t.sender (groupBySender ts))) = _
    by_cases h : t.sender = s
    · rw [if_pos h, h, ih, List.filter_cons_of_pos]
      simp [h]
    · rw [if_neg h, groupGet_groupErase_ne s t.sender (fun e => h e.symm), ih,
        List.filter_cons_of_neg]
      simp [h]

theorem mem_keys_groupBySender (s : String) :
    ∀ l : List Tx, s ∈ (groupBySender l).map Prod.fst ↔ s ∈ l.map Tx.sender := by
  intro l
  induction l with
  | nil => simp [groupBySender]
  | cons t ts ih =>
    show s ∈ ((t.sender, t :: groupGet t.sender (groupBySender ts)) ::
      groupErase t.sender (groupBySender ts)).map Prod.fst ↔ _
    simp only [List.map_cons, List.mem_cons]
    by_cases h2 : s = t.sender
    · simp [h2]
    · rw [mem_keys_groupErase h2, ih]

theorem nodup_keys_groupBySender :
    ∀ l : List Tx, ((groupBySender l).map Prod.fst).Nodup := by
  intro l
  induction l with
  | nil => simp [groupBySender]
  | cons t ts ih =>
    show (((t.sender, t :: groupGet t.sender (groupBySender ts)) ::
      groupErase t.sender (groupBySender ts)).map Prod.fst).Nodup
    simp only [List.map_cons, List.nodup_cons]
    exact ⟨not_mem_keys_groupErase t.sender (groupBySender ts),
      List.Nodup.sublist ((groupErase_sublist t.sender (groupBySender ts)).map Prod.fst) ih⟩

theorem groupGet_of_mem_nodup {m : List (String × List Tx)}
    (hnd : (m.map Prod.fst).Nodup) {g : String × List Tx} (hg : g ∈ m) :
    groupGet g.1 m = g.2 := by
  induction m with
  | nil => simp at hg
  | cons e rest ih =>
    simp only [List.map_cons, List.nodup_cons] at hnd
    rcases List.mem_cons.mp hg with h | h
    · subst h
      show (if g.1 = g.1 then g.2 else groupGet g.1 rest) = g.2
      rw [if_pos rfl]
    · have hne : ¬ e.1 = g.1 := by
        intro h'
        exact hnd.1 (h' ▸ List.mem_map_of_mem Prod.fst h)
      show (if e.1 = g.1 then e.2 else groupGet g.1 rest) = g.2
      rw [if_neg hne]
      exact ih hnd.2 h

/-! ### Pipeline facts -/

theorem nodup_keys_senderLists (txs : List Tx) (baseFee : Int) :
    ((senderLists txs baseFee).map Prod.fst).Nodup := by
  unfold senderLists
  rw [List.map_map]
  exact nodup_keys_groupBySender _

theorem snd_mem_senderLists {txs : List Tx} {baseFee : Int} {g : String × List Tx}
    (hg : g ∈ senderLists txs baseFee) : g.2 = senderQueue txs baseFee g.1 := by
  unfold senderLists at hg
  rcases List.mem_map.mp hg with ⟨g0, hg0, hmap⟩
  have h2 : groupGet g0.1 (groupBySender (eligibleOf txs baseFee)) = g0.2 :=
    groupGet_of_mem_nodup (nodup_keys_groupBySender _) hg0
  rw [groupGet_groupBySender] at h2
  have h1 : g.1 = g0.1 := by rw [← hmap]
  have h3 : g.2 = List.insertionSort nonceRel g0.2 := by rw [← hmap]
  rw [h3, ← h2, h1]
  rfl

theorem lookupNN_map_of_mem (f : String × List Tx → Int) :
    ∀ {m : List (String × List Tx)}, ((m.map Prod.fst).Nodup) →
      ∀ {g : String × List Tx}, g ∈ m →
        lookupNN g.1 (m.map (fun e => (e.1, f e))) = f g := by
  intro m
  induction m with
  | nil => intro _ g hg; simp at hg
  | cons e rest ih =>
    intro hnd g hg
    simp only [List.map_cons, List.nodup_cons] at hnd
    rcases List.mem_cons.mp hg with h | h
    · subst h
      show (if g.1 = g.1 then f g else _) = f g
      rw [if_pos rfl]
    · have hne : ¬ e.1 = g.1 := by
        intro h'
        exact hnd.1 (h' ▸ List.mem_map_of_mem Prod.fst h)
      show (if e.1 = g.1 then f e else lookupNN g.1 (rest.map fun e => (e.1, f e))) = f g
      rw [if_neg hne]
      exact ih hnd.2 h

theorem lookupNN_initNN {txs : List Tx} {baseFee : Int} {g : String × List Tx}
    (hg : g ∈ senderLists txs baseFee) :
    lookupNN g.1 (initNN txs baseFee) = headNonceD g.2 :=
  lookupNN_map_of_mem (fun e => headNonceD e.2) (nodup_keys_senderLists txs baseFee) hg

theorem mem_headsInit {txs : List Tx} {baseFee : Int} {h : Head} :
    h ∈ headsInit txs baseFee ↔ ∃ g ∈ senderLists txs baseFee, h = ⟨g.1, 0, g.2⟩ := by
  unfold headsInit
  rw [List.mem_insertionSort, List.mem_map]
  constructor
  · rintro ⟨g, hg, rfl⟩
    exact ⟨g, hg, rfl⟩
  · rintro ⟨g, hg, rfl⟩
    exact ⟨g, hg, rfl⟩

theorem headsInit_idx {txs : List Tx} {baseFee : Int} {h : Head}
    (hh : h ∈ headsInit txs baseFee) : h.idx = 0 := by
  rcases mem_headsInit.mp hh with ⟨g, _, rfl⟩
  rfl

theorem headsInit_list {txs : List Tx} {baseFee : Int} {h : Head}
    (hh : h ∈ headsInit txs baseFee) : h.list = senderQueue txs baseFee h.s := by
  rcases mem_headsInit.mp hh with ⟨g, hg, rfl⟩
  exact snd_mem_senderLists hg

theorem headsInit_nn {txs : List Tx} {baseFee : Int} {h : Head}
    (hh : h ∈ headsInit txs baseFee) :
    lookupNN h.s (initNN txs baseFee) = headNonceD h.list := by
  rcases mem_headsInit.mp hh with ⟨g, hg, rfl⟩
  exact lookupNN_initNN hg

theorem nodup_headsInit_senders (txs : List Tx) (baseFee : Int) :
    ((headsInit txs baseFee).map Head.s).Nodup := by
  have hperm : List.Perm ((headsInit txs baseFee).map Head.s)
      (((senderLists txs baseFee).map (fun g => (⟨g.1, 0, g.2⟩ : Head))).map Head.s) :=
    (List.perm_insertionSort headRel _).map Head.s
  rw [hperm.nodup_iff, List.map_map]
  exact nodup_keys_senderLists txs baseFee

theorem sorted_headsInit (txs : List Tx) (baseFee : Int) :
    (headsInit txs baseFee).Pairwise headRel :=
  List.sorted_insertionSort headRel _

theorem sorted_senderQueue (txs : List Tx) (baseFee : Int) (s : String) :
    (senderQueue txs baseFee s).Pairwise nonceRel :=
  List.sorted_insertionSort nonceRel _

/-- Per-sender nonce uniqueness of the input pool. -/
def UniqNonces (txs : List Tx) : Prop :=
  txs.Pairwise (fun a b => a.sender = b.sender → a.nonce ≠ b.nonce)

theorem senderQueue_strict {txs : List Tx} (huniq : UniqNonces txs) (baseFee : Int)
    (s : String) :
    (senderQueue txs baseFee s).Pairwise (fun a b => a.nonce < b.nonce) := by
  have hsym : ∀ {x y : Tx}, (x.sender = y.sender → x.nonce ≠ y.nonce) →
      (y.sender = x.sender → y.nonce ≠ x.nonce) :=
    fun hxy hyx hn => hxy hyx.symm hn.symm
  have h1 : (txs.filter (fun t => baseFee ≤ t.price)).Pairwise
      (fun a b => a.sender = b.sender → a.nonce ≠ b.nonce) := huniq.filter _
  have h2 : (eligibleOf txs baseFee).Pairwise
      (fun a b => a.sender = b.sender → a.nonce ≠ b.nonce) :=
    ((List.perm_insertionSort priceDescRel _).pairwise_iff hsym).mpr h1
  have h3 : ((eligibleOf txs baseFee).filter (fun t => t.sender = s)).Pairwise
      (fun a b => a.sender = b.sender → a.nonce ≠ b.nonce) := h2.filter _
  have h4 : ((eligibleOf txs baseFee).filter (fun t => t.sender = s)).Pairwise
      (fun a b => a.nonce ≠ b.nonce) := by
    refine List.Pairwise.imp_of_mem ?_ h3
    intro a b ha hb hr
    have ha2 : a.sender = s := by simpa using (List.mem_filter.mp ha).2
    have hb2 : b.sender = s := by simpa using (List.mem_filter.mp hb).2
    exact hr (ha2.trans hb2.symm)
  have hsym2 : ∀ {x y : Tx}, x.nonce ≠ y.nonce → y.nonce ≠ x.nonce := fun h => h.symm
  have h5 : (senderQueue txs baseFee s).Pairwise (fun a b => a.nonce ≠ b.nonce) :=
    ((List.perm_insertionSort nonceRel _).pairwise_iff hsym2).mpr h4
  have h6 := (sorted_senderQueue txs baseFee s).and h5
  refine h6.imp ?_
  rintro a b ⟨hle, hne⟩
  exact lt_of_le_of_ne hle hne

/-! ### Loop structure lemmas -/

theorem actHead_cases (st : St) (h : Head) :
    (actHead st h = (h, st, none) ∧
      (h.list[h.idx]? = none ∨
        ∃ tx, h.list[h.idx]? = some tx ∧ tx.nonce ≠ lookupNN h.s st.nn)) ∨
    (∃ tx, h.list[h.idx]? = some tx ∧ tx.nonce = lookupNN h.s st.nn ∧ tx.gas ≤ st.gasLeft ∧
      actHead st h = (⟨h.s, h.idx + 1, h.list⟩,
        ⟨setNN h.s (tx.nonce + 1) st.nn, st.picked ++ [tx], st.gasLeft - tx.gas⟩,
        some (true, tx))) ∨
    (∃ tx, h.list[h.idx]? = some tx ∧ tx.nonce = lookupNN h.s st.nn ∧ ¬ tx.gas ≤ st.gasLeft ∧
      actHead st h = (⟨h.s, h.idx + 1, h.list⟩, st, some (false, tx))) := by
  rcases hget : h.list[h.idx]? with _ | tx
  · refine Or.inl ⟨?_, Or.inl rfl⟩
    unfold actHead
    rw [hget]
  · by_cases hn : tx.nonce = lookupNN h.s st.nn
    · by_cases hg : tx.gas ≤ st.gasLeft
      · refine Or.inr (Or.inl ⟨tx, rfl, hn, hg, ?_⟩)
        unfold actHead
        rw [hget]
        dsimp only
        rw [if_neg (not_not_intro hn), if_pos hg, hn]
      · refine Or.inr (Or.inr ⟨tx, rfl, hn, hg, ?_⟩)
        unfold actHead
        rw [hget]
        dsimp only
        rw [if_neg (not_not_intro hn), if_neg hg]
    · refine Or.inl ⟨?_, Or.inr ⟨tx, rfl, hn⟩⟩
      unfold actHead
      rw [hget]
      dsimp only
      rw [if_pos hn]

theorem actHead_s (st : St) (h : Head) : ((actHead st h).1).s = h.s := by
  rcases actHead_cases st h with ⟨heq, _⟩ | ⟨tx, _, _, _, heq⟩ | ⟨tx, _, _, _, heq⟩ <;>
    rw [heq]

theorem actHead_list (st : St) (h : Head) : ((actHead st h).1).list = h.list := by
  rcases actHead_cases st h with ⟨heq, _⟩ | ⟨tx, _, _, _, heq⟩ | ⟨tx, _, _, _, heq⟩ <;>
    rw [heq]

theorem actHead_idx_le (st : St) (h : Head) : h.idx ≤ ((actHead st h).1).idx := by
  rcases actHead_cases st h with ⟨heq, _⟩ | ⟨tx, _, _, _, heq⟩ | ⟨tx, _, _, _, heq⟩ <;>
    rw [heq] <;> dsimp only <;> omega

theorem actHead_picked_extends (st : St) (h : Head) :
    ∃ suf, ((actHead st h).2.1).picked = st.picked ++ suf := by
  rcases actHead_cases st h with ⟨heq, _⟩ | ⟨tx, _, _, _, heq⟩ | ⟨tx, _, _, _, heq⟩ <;>
    rw [heq]
  · exact ⟨[], (List.append_nil _).symm⟩
  · exact ⟨[tx], rfl⟩
  · exact ⟨[], (List.append_nil _).symm⟩

theorem passRec_cons (maxTxs : Int) (pre : List Head) (h : Head) (tl : List Head) (st : St)
    (prog : Bool) (log : List Ev) :
    passRec maxTxs pre (h :: tl) st prog log =
      if (st.picked.length : Int) < maxTxs ∧ 0 < st.gasLeft then
        ((actHead st h).1 ::
          (passRec maxTxs (pre ++ [(actHead st h).1]) tl ((actHead st h).2.1)
            (prog || ((actHead st h).2.2).isSome)
            (log ++ evFor h (pre ++ h :: tl) st ((actHead st h).2.2))).1,
         (passRec maxTxs (pre ++ [(actHead st h).1]) tl ((actHead st h).2.1)
            (prog || ((actHead st h).2.2).isSome)
            (log ++ evFor h (pre ++ h :: tl) st ((actHead st h).2.2))).2)
      else (h :: tl, st, prog, log) := rfl

theorem loopRec_succ (maxTxs : Int) (fuel : Nat) (heads : List Head) (st : St)
    (log : List Ev) :
    loopRec maxTxs (fuel + 1) heads st log =
      if (st.picked.length : Int) < maxTxs ∧ 0 < st.gasLeft then
        (if (passRec maxTxs [] heads st false log).2.2.1 then
          loopRec maxTxs fuel (passRec maxTxs [] heads st false log).1
            (passRec maxTxs [] heads st false log).2.1
            (passRec maxTxs [] heads st false log).2.2.2
        else ((passRec maxTxs [] heads st false log).1,
          (passRec maxTxs [] heads st false log).2.1,
          (passRec maxTxs [] heads st false log).2.2.2))
      else (heads, st, log) := rfl

theorem passRec_pairs (maxTxs : Int) :
    ∀ (rest : List Head) (pre : List Head) (st : St) (prog : Bool) (log : List Ev),
      ((passRec maxTxs pre rest st prog log).1).map (fun h => (h.s, h.list)) =
        rest.map (fun h => (h.s, h.list)) := by
  intro rest
  induction rest with
  | nil => intro pre st prog log; rfl
  | cons h tl ih =>
    intro pre st prog log
    rw [passRec_cons]
    by_cases hc : (st.picked.length : Int) < maxTxs ∧ 0 < st.gasLeft
    · rw [if_pos hc]
      simp only [List.map_cons, ih, actHead_s, actHead_list]
    · rw [if_neg hc]

theorem passRec_picked_extends (maxTxs : Int) :
    ∀ (rest : List Head) (pre : List Head) (st : St) (prog : Bool) (log : List Ev),
      ∃ suf, ((passRec maxTxs pre rest st prog log).2.1).picked = st.picked ++ suf := by
  intro rest
  induction rest with
  | nil => intro pre st prog log; exact ⟨[], (List.append_nil _).symm⟩
  | cons h tl ih =>
    intro pre st prog log
    rw [passRec_cons]
    by_cases hc : (st.picked.length : Int) < maxTxs ∧ 0 < st.gasLeft
    · rw [if_pos hc]
      rcases actHead_picked_extends st h with ⟨s1, hs1⟩
      rcases ih (pre ++ [(actHead st h).1]) ((actHead st h).2.1)
        (prog || ((actHead st h).2.2).isSome)
        (log ++ evFor h (pre ++ h :: tl) st ((actHead st h).2.2)) with ⟨s2, hs2⟩
      exact ⟨s1 ++ s2, by rw [hs2, hs1, List.append_assoc]⟩
    · rw [if_neg hc]
      exact ⟨[], (List.append_nil _).symm⟩

theorem loopRec_picked_extends (maxTxs : Int) :
    ∀ (fuel : Nat) (heads : List Head) (st : St) (log : List Ev),
      ∃ suf, ((loopRec maxTxs fuel heads st log).2.1).picked = st.picked ++ suf := by
  intro fuel
  induction fuel with
  | zero => intro heads st log; exact ⟨[], (List.append_nil _).symm⟩
  | succ fuel ih =>
    intro heads st log
    rw [loopRec_succ]
    by_cases hc : (st.picked.length : Int) < maxTxs ∧ 0 < st.gasLeft
    · rw [if_pos hc]
      rcases passRec_picked_extends maxTxs heads [] st false log with ⟨s1, hs1⟩
      by_cases hp : (passRec maxTxs [] heads st false log).2.2.1
      · rw [if_pos hp]
        rcases ih (passRec maxTxs [] heads st false log).1
          (passRec maxTxs [] heads st false log).2.1
          (passRec maxTxs [] heads st false log).2.2.2 with ⟨s2, hs2⟩
        exact ⟨s1 ++ s2, by rw [hs2, hs1, List.append_assoc]⟩
      · rw [if_neg hp]
        exact ⟨s1, hs1⟩
    · rw [if_neg hc]
      exact ⟨[], (List.append_nil _).symm⟩

theorem loopRec_pairs (maxTxs : Int) :
    ∀ (fuel : Nat) (heads : List Head) (st : St) (log : List Ev),
      ((loopRec maxTxs fuel heads st log).1).map (fun h => (h.s, h.list)) =
        heads.map (fun h => (h.s, h.list)) := by
  intro fuel
  induction fuel with
  | zero => intro heads st log; rfl
  | succ fuel ih =>
    intro heads st log
    rw [loopRec_succ]
    by_cases hc : (st.picked.length : Int) < maxTxs ∧ 0 < st.gasLeft
    · rw [if_pos hc]
      by_cases hp : (passRec maxTxs [] heads st false log).2.2.1
      · rw [if_pos hp, ih, passRec_pairs]
      · rw [if_neg hp]
        exact passRec_pairs maxTxs heads [] st false log
    · rw [if_neg hc]

/-! ### Measure and termination -/

theorem measureHeads_cons (h : Head) (tl : List Head) :
    measureHeads (h :: tl) = (h.list.length - h.idx) + measureHeads tl := by
  simp [measureHeads]

theorem actHead_measure_le (st : St) (h : Head) :
    ((actHead st h).1).list.length - ((actHead st h).1).idx ≤ h.list.length - h.idx := by
  rcases actHead_cases st h with ⟨heq, _⟩ | ⟨tx, hget, _, _, heq⟩ | ⟨tx, hget, _, _, heq⟩ <;>
    rw [heq] <;> dsimp only <;> omega

theorem actHead_measure_lt (st : St) (h : Head)
    (hs : ((actHead st h).2.2).isSome = true) :
    ((actHead st h).1).list.length - ((actHead st h).1).idx < h.list.length - h.idx := by
  rcases actHead_cases st h with ⟨heq, _⟩ | ⟨tx, hget, _, _, heq⟩ | ⟨tx, hget, _, _, heq⟩
  · rw [heq] at hs
    simp at hs
  · have hlt : h.idx < h.list.length := (List.getElem?_eq_some_iff.mp hget).1
    rw [heq]
    dsimp only
    omega
  · have hlt : h.idx < h.list.length := (List.getElem?_eq_some_iff.mp hget).1
    rw [heq]
    dsimp only
    omega

theorem passRec_measure_le (maxTxs : Int) :
    ∀ (rest pre : List Head) (st : St) (prog : Bool) (log : List Ev),
      measureHeads (passRec maxTxs pre rest st prog log).1 ≤ measureHeads rest := by
  intro rest
  induction rest with
  | nil => intro pre st prog log; exact le_refl _
  | cons h tl ih =>
    intro pre st prog log
    rw [passRec_cons]
    by_cases hc : (st.picked.length : Int) < maxTxs ∧ 0 < st.gasLeft
    · rw [if_pos hc]
      rw [measureHeads_cons, measureHeads_cons]
      exact Nat.add_le_add (actHead_measure_le st h) (ih _ _ _ _)
    · rw [if_neg hc]

theorem passRec_measure_lt (maxTxs : Int) :
    ∀ (rest pre : List Head) (st : St) (log : List Ev),
      (passRec maxTxs pre rest st false log).2.2.1 = true →
      measureHeads (passRec maxTxs pre rest st false log).1 < measureHeads rest := by
  intro rest
  induction rest with
  | nil =>
    intro pre st log hp
    exact absurd hp (by simp [passRec])
  | cons h tl ih =>
    intro pre st log hp
    rw [passRec_cons] at hp ⊢
    by_cases hc : (st.picked.length : Int) < maxTxs ∧ 0 < st.gasLeft
    · rw [if_pos hc] at hp ⊢
      rw [measureHeads_cons, measureHeads_cons]
      by_cases hs : ((actHead st h).2.2).isSome = true
      · exact Nat.add_lt_add_of_lt_of_le (actHead_measure_lt st h hs) (passRec_measure_le _ _ _ _ _ _)
      · have hs' : ((actHead st h).2.2).isSome = false := by
          simpa using hs
        rw [hs', Bool.or_false] at hp ⊢
        have := ih (pre ++ [(actHead st h).1]) ((actHead st h).2.1)
          (log ++ evFor h (pre ++ h :: tl) st ((actHead st h).2.2)) hp
        have hle := actHead_measure_le st h
        omega
    · rw [if_neg hc] at hp
      simp at hp

theorem loopRec_stable_aux (maxTxs : Int) :
    ∀ (fuel : Nat) (k : Nat) (heads : List Head) (st : St) (log : List Ev),
      measureHeads heads < fuel →
      loopRec maxTxs (fuel + k) heads st log = loopRec maxTxs fuel heads st log := by
  intro fuel
  induction fuel with
  | zero => intro k heads st log hm; exact absurd hm (Nat.not_lt_zero _)
  | succ fuel ih =>
    intro k heads st log hm
    have hrw : fuel + 1 + k = (fuel + k) + 1 := by omega
    rw [hrw, loopRec_succ, loopRec_succ]
    by_cases hc : (st.picked.length : Int) < maxTxs ∧ 0 < st.gasLeft
    · rw [if_pos hc, if_pos hc]
      by_cases hp : (passRec maxTxs [] heads st false log).2.2.1
      · rw [if_pos hp, if_pos hp]
        exact ih k _ _ _
          (lt_of_lt_of_le (passRec_measure_lt maxTxs heads [] st log hp) (by omega))
      · rw [if_neg hp, if_neg hp]
    · rw [if_neg hc, if_neg hc]

/-- C9: the greedy admission loop of `selectTxs` terminates: within
`loopFuel p` passes it reaches its stopping condition (`picked` reached
`maxTxs`, the gas budget cannot admit anything, or a full pass made no
progress), so granting the loop any extra fuel does not change the outcome. -/
theorem selectTxs_terminates (p : SelectParams) (k : Nat) :
    selectRunFuel p (loopFuel p + k) = selectRunFuel p (loopFuel p) := by
  unfold selectRunFuel loopFuel
  exact loopRec_stable_aux p.maxTxs _ k _ _ _ (Nat.lt_succ_self _)

/-! ### Gas budget invariant -/

/-- Loop invariant tying `gasLeft` to the gas already spent on `picked`. -/
def GasInv (maxGas : Int) (st : St) : Prop :=
  0 ≤ st.gasLeft ∧ sumGas st.picked + st.gasLeft = maxGas

theorem sumGas_append (l : List Tx) (t : Tx) : sumGas (l ++ [t]) = sumGas l + t.gas := by
  simp [sumGas]

theorem actHead_gas {maxGas : Int} {st : St} (h : Head) (hi : GasInv maxGas st) :
    GasInv maxGas ((actHead st h).2.1) := by
  rcases actHead_cases st h with ⟨heq, _⟩ | ⟨tx, _, _, hg, heq⟩ | ⟨tx, _, _, _, heq⟩ <;>
    rw [heq]
  · exact hi
  · rcases hi with ⟨h1, h2⟩
    refine ⟨by dsimp only; omega, ?_⟩
    dsimp only
    rw [sumGas_append]
    omega
  · exact hi

theorem passRec_gas (maxTxs : Int) {maxGas : Int} :
    ∀ (rest pre : List Head) (st : St) (prog : Bool) (log : List Ev),
      GasInv maxGas st → GasInv maxGas (passRec maxTxs pre rest st prog log).2.1 := by
  intro rest
  induction rest with
  | nil => intro pre st prog log hi; exact hi
  | cons h tl ih =>
    intro pre st prog log hi
    rw [passRec_cons]
    by_cases hc : (st.picked.length : Int) < maxTxs ∧ 0 < st.gasLeft
    · rw [if_pos hc]
      exact ih _ _ _ _ (actHead_gas h hi)
    · rw [if_neg hc]
      exact hi

theorem loopRec_gas (maxTxs : Int) {maxGas : Int} :
    ∀ (fuel : Nat) (heads : List Head) (st : St) (log : List Ev),
      GasInv maxGas st → GasInv maxGas (loopRec maxTxs fuel heads st log).2.1 := by
  intro fuel
  induction fuel with
  | zero => intro heads st log hi; exact hi
  | succ fuel ih =>
    intro heads st log hi
    rw [loopRec_succ]
    by_cases hc : (st.picked.length : Int) < maxTxs ∧ 0 < st.gasLeft
    · rw [if_pos hc]
      by_cases hp : (passRec maxTxs [] heads st false log).2.2.1
      · rw [if_pos hp]
        exact ih _ _ _ (passRec_gas maxTxs heads [] st false log hi)
      · rw [if_neg hp]
        exact passRec_gas maxTxs heads [] st false log hi
    · rw [if_neg hc]
      exact hi

/-- C2: whenever `maxGas` is non-negative and every transaction's gas is
non-negative, the reported `gasUsed` (the sum of `gas` over `picked`) never
exceeds `maxGas`. -/
theorem selectTxs_gas_budget (p : SelectParams) (hmg : 0 ≤ p.maxGas)
    (hgas : ∀ t ∈ p.txs, 0 ≤ t.gas) :
    (selectTxs p).gasUsed ≤ p.maxGas := by
  have hinit : GasInv p.maxGas ⟨initNN p.txs p.baseFee, [], p.maxGas⟩ := by
    refine ⟨hmg, ?_⟩
    simp [sumGas]
  have hfin := loopRec_gas p.maxTxs (loopFuel p) (headsInit p.txs p.baseFee)
    ⟨initNN p.txs p.baseFee, [], p.maxGas⟩ [] hinit
  show sumGas (selectRun p).2.1.picked ≤ p.maxGas
  have hsame : (selectRun p).2.1 = (loopRec p.maxTxs (loopFuel p) (headsInit p.txs p.baseFee)
      ⟨initNN p.txs p.baseFee, [], p.maxGas⟩ []).2.1 := rfl
  rw [hsame]
  rcases hfin with ⟨h1, h2⟩
  omega

/-- Witness for C2 at a concrete input. -/
theorem selectTxs_gas_budget_witness :
    (0 : Int) ≤ 10 ∧
      (selectTxs ⟨[⟨"t1", "A", 4, 7, 0, 0⟩, ⟨"t2", "B", 9, 5, 0, 0⟩], 0, 10, 5⟩).gasUsed ≤ 10 :=
  ⟨by norm_num,
   selectTxs_gas_budget ⟨[⟨"t1", "A", 4, 7, 0, 0⟩, ⟨"t2", "B", 9, 5, 0, 0⟩], 0, 10, 5⟩
     (by norm_num) (by decide)⟩

/-! ### Eligibility count -/

theorem length_eligibleOf (txs : List Tx) (baseFee : Int) :
    (eligibleOf txs baseFee).length = txs.countP (fun t => decide (baseFee ≤ t.price)) := by
  unfold eligibleOf
  rw [(List.perm_insertionSort priceDescRel _).length_eq, List.countP_eq_length_filter]

/-- C8: `eligibleCount` equals the number of input transactions with
`price >= baseFee`; the right-hand side mentions neither `maxGas` nor
`maxTxs`, so the count is independent of them. -/
theorem selectTxs_eligibleCount (p : SelectParams) :
    (selectTxs p).eligibleCount = p.txs.countP (fun t => decide (p.baseFee ≤ t.price)) := by
  show (eligibleOf p.txs p.baseFee).length = _
  exact length_eligibleOf p.txs p.baseFee

/-! ### No input validation (error claims) -/

/-- C4 (amended): the engine performs no input validation.  With
`maxGas < 0` or `maxTxs < 0` the loop condition fails immediately and an
ordinary `SelectionResult` with empty `picked`, `gasUsed = 0`,
`avgPrice = 0` and the usual `eligibleCount` is returned — no
`InvalidConstraint` or `InvalidTransaction` error exists anywhere. -/
theorem selectTxs_no_validation (p : SelectParams)
    (h : p.maxGas < 0 ∨ p.maxTxs < 0) :
    (selectTxs p).picked = [] ∧ (selectTxs p).gasUsed = 0 ∧ (selectTxs p).avgPrice = 0 ∧
      (selectTxs p).eligibleCount = p.txs.countP (fun t => decide (p.baseFee ≤ t.price)) := by
  have hcond : ¬ ((([] : List Tx).length : Int) < p.maxTxs ∧
      0 < (⟨initNN p.txs p.baseFee, [], p.maxGas⟩ : St).gasLeft) := by
    rcases h with h | h
    · intro hc
      have := hc.2
      dsimp only at this
      omega
    · intro hc
      have := hc.1
      simp only [List.length_nil, Nat.cast_zero] at this
      omega
  have hpicked : (selectRun p).2.1.picked = [] := by
    show ((loopRec p.maxTxs (measureHeads (headsInit p.txs p.baseFee) + 1)
      (headsInit p.txs p.baseFee) ⟨initNN p.txs p.baseFee, [], p.maxGas⟩ []).2.1).picked = []
    rw [loopRec_succ, if_neg hcond]
  refine ⟨hpicked, ?_, ?_, length_eligibleOf p.txs p.baseFee⟩
  · show sumGas (selectRun p).2.1.picked = 0
    rw [hpicked]
    rfl
  · show (if (selectRun p).2.1.picked.length = 0 then (0 : Int) else _) = 0
    rw [hpicked]
    rfl

/-! ### Average price -/

theorem round_half_eq (s : Int) (n : Nat) (hn : 0 < n) :
    (2 * s + (n : Int)) / (2 * (n : Int)) = ⌊(s : ℚ) / (n : ℚ) + 1 / 2⌋ := by
  have hne : (n : ℚ) ≠ 0 := by
    exact_mod_cast Nat.pos_iff_ne_zero.mp hn
  have h1 : (s : ℚ) / (n : ℚ) + 1 / 2 = ((2 * s + (n : Int) : Int) : ℚ) / ((2 * n : Nat) : ℚ) := by
    push_cast
    field_simp
    ring
  rw [h1, Rat.floor_intCast_div_natCast]
  push_cast
  rfl

/-- C5 (amended): `avgPrice` is `0` when `picked` is empty and otherwise
the half-up rounding `⌊mean + 1/2⌋` (JavaScript `Math.round`) of the
arithmetic mean of `price` over `picked` — not the exact mean. -/
theorem selectTxs_avgPrice_round (p : SelectParams) :
    (selectTxs p).avgPrice =
      if (selectTxs p).picked = [] then 0
      else ⌊(sumPrice (selectTxs p).picked : ℚ) /
        ((selectTxs p).picked.length : ℚ) + 1 / 2⌋ := by
  show (if (selectRun p).2.1.picked.length = 0 then (0 : Int)
    else (2 * sumPrice (selectRun p).2.1.picked + (selectRun p).2.1.picked.length) /
      (2 * ((selectRun p).2.1.picked.length : Int))) =
    if (selectRun p).2.1.picked = [] then 0
    else ⌊(sumPrice ((selectRun p).2.1.picked) : ℚ) /
      (((selectRun p).2.1.picked).length : ℚ) + 1 / 2⌋
  by_cases hnil : (selectRun p).2.1.picked = []
  · rw [if_pos (by rw [hnil]; rfl), if_pos hnil]
  · have hlen : (selectRun p).2.1.picked.length ≠ 0 := by
      simpa using hnil
    rw [if_neg hlen, if_neg hnil]
    exact round_half_eq (sumPrice (selectRun p).2.1.picked)
      ((selectRun p).2.1.picked.length) (Nat.pos_of_ne_zero hlen)

/-! ### Per-sender order invariant -/

theorem pickedS_append_same {t : Tx} {s : String} (hts : t.sender = s) (l : List Tx) :
    pickedS s (l ++ [t]) = pickedS s l ++ [t] := by
  simp [pickedS, List.filter_append, hts]

theorem pickedS_append_ne {t : Tx} {s : String} (hts : ¬ t.sender = s) (l : List Tx) :
    pickedS s (l ++ [t]) = pickedS s l := by
  simp [pickedS, List.filter_append, hts]

theorem countS_append_same {t : Tx} {s : String} (hts : t.sender = s) (l : List Tx) :
    countS s (l ++ [t]) = countS s l + 1 := by
  simp [countS, pickedS_append_same hts]

theorem countS_append_ne {t : Tx} {s : String} (hts : ¬ t.sender = s) (l : List Tx) :
    countS s (l ++ [t]) = countS s l := by
  simp [countS, pickedS_append_ne hts]

theorem headNonceD_eq {l : List Tx} {t : Tx} (h : l[0]? = some t) :
    headNonceD l = t.nonce := by
  unfold headNonceD
  rw [List.head?_eq_getElem?, h]
  rfl

theorem sep_of_nodup {pre tl : List Head} {h : Head}
    (hnd : ((pre ++ h :: tl).map Head.s).Nodup) :
    ∀ h2 ∈ pre ++ tl, ¬ h2.s = h.s := by
  intro h2 hmem heq
  rw [List.map_append, List.map_cons] at hnd
  rcases List.mem_append.mp hmem with hm | hm
  · have h1 : h.s ∈ pre.map Head.s := heq ▸ List.mem_map_of_mem Head.s hm
    rcases List.nodup_append.mp hnd with ⟨_, _, hdisj⟩
    exact hdisj h1 (List.mem_cons_self _ _)
  · have h1 : h.s ∈ tl.map Head.s := heq ▸ List.mem_map_of_mem Head.s hm
    rcases List.nodup_append.mp hnd with ⟨_, hnd2, _⟩
    exact (List.nodup_cons.mp hnd2).1 h1

theorem head_unique {heads : List Head} (hnd : (heads.map Head.s).Nodup)
    {h1 h2 : Head} (m1 : h1 ∈ heads) (m2 : h2 ∈ heads) (hs : h1.s = h2.s) : h1 = h2 :=
  List.inj_on_of_nodup_map hnd m1 m2 hs

/-- Strictly ascending nonces in a queue. -/
def StrictQ (l : List Tx) : Prop := l.Pairwise (fun a b => a.nonce < b.nonce)

/-- Per-head invariant: the admitted transactions of the head's sender are
exactly the `nextNonce`-recorded consecutive prefix of the head's queue and
never run ahead of `idx`. -/
def HInv (st : St) (h : Head) : Prop :=
  pickedS h.s st.picked = h.list.take (countS h.s st.picked) ∧
  countS h.s st.picked ≤ h.idx ∧
  lookupNN h.s st.nn = headNonceD h.list + countS h.s st.picked ∧
  (∀ j t, h.list[j]? = some t → j < countS h.s st.picked →
    t.nonce = headNonceD h.list + j)

/-- Global invariant of the selection loop. -/
def GInv (heads : List Head) (st : St) (log : List Ev) : Prop :=
  (heads.map Head.s).Nodup ∧
  (∀ t ∈ st.picked, t.sender ∈ heads.map Head.s) ∧
  (∀ h ∈ heads, ∀ t ∈ h.list, t.sender = h.s) ∧
  (∀ h ∈ heads, StrictQ h.list) ∧
  (∀ h ∈ heads, HInv st h) ∧
  (∀ e ∈ log, ∀ str, evSkpSender e = some str →
    ∃ h2, h2 ∈ heads ∧ h2.s = str ∧ countS str st.picked < h2.idx) ∧
  log.Pairwise (fun e1 e2 => ∀ str, evSkpSender e1 = some str →
    evAdmSender e2 = some str → False)

theorem strict_lt {l : List Tx} (hs : StrictQ l) {i j : Nat} {ti tj : Tx}
    (hi : l[i]? = some ti) (hj : l[j]? = some tj) (hij : i < j) : ti.nonce < tj.nonce := by
  rcases List.getElem?_eq_some_iff.mp hi with ⟨hi1, hi2⟩
  rcases List.getElem?_eq_some_iff.mp hj with ⟨hj1, hj2⟩
  have hp := (List.pairwise_iff_getElem.mp hs) i j hi1 hj1 hij
  rw [hi2, hj2] at hp
  exact hp

theorem adm_idx_eq {st : St} {h : Head} {tx : Tx}
    (hget : h.list[h.idx]? = some tx)
    (hn : tx.nonce = lookupNN h.s st.nn)
    (hstrict : StrictQ h.list)
    (hinv : HInv st h) :
    countS h.s st.picked = h.idx := by
  obtain ⟨hA1, hA2, hA3, hA4⟩ := hinv
  by_contra hne
  have hmlt : countS h.s st.picked < h.idx := lt_of_le_of_ne hA2 hne
  have hidxlen : h.idx < h.list.length := (List.getElem?_eq_some_iff.mp hget).1
  have hmlen : countS h.s st.picked < h.list.length := lt_trans hmlt hidxlen
  obtain ⟨tm, hgetm⟩ : ∃ tm, h.list[countS h.s st.picked]? = some tm := by
    rw [List.getElem?_eq_getElem hmlen]
    exact ⟨_, rfl⟩
  have hnm : headNonceD h.list + (countS h.s st.picked : Int) ≤ tm.nonce := by
    rcases Nat.eq_zero_or_pos (countS h.s st.picked) with hz | hpos
    · rw [hz] at hgetm ⊢
      rw [headNonceD_eq hgetm]
      simp
    · obtain ⟨tm1, hgetm1⟩ : ∃ t1, h.list[countS h.s st.picked - 1]? = some t1 := by
        rw [List.getElem?_eq_getElem (show countS h.s st.picked - 1 < h.list.length by omega)]
        exact ⟨_, rfl⟩
      have hcons := hA4 _ _ hgetm1 (by omega)
      have hlt2 : tm1.nonce < tm.nonce := strict_lt hstrict hgetm1 hgetm (by omega)
      rw [hcons] at hlt2
      omega
  have htx : tm.nonce < tx.nonce := strict_lt hstrict hgetm hget hmlt
  rw [hA3] at hn
  omega

theorem mem_split (pre tl : List Head) (hMid h2 : Head)
    (hm : h2 ∈ pre ++ hMid :: tl) : h2 = hMid ∨ h2 ∈ pre ++ tl := by
  rcases List.mem_append.mp hm with hm | hm
  · exact Or.inr (List.mem_append_left _ hm)
  · rcases List.mem_cons.mp hm with hm | hm
    · exact Or.inl hm
    · exact Or.inr (List.mem_append_right _ hm)

theorem mem_unsplit (pre tl : List Head) (hMid h2 : Head)
    (hm : h2 ∈ pre ++ tl) : h2 ∈ pre ++ hMid :: tl := by
  rcases List.mem_append.mp hm with hm | hm
  · exact List.mem_append_left _ hm
  · exact List.mem_append_right _ (List.mem_cons_of_mem _ hm)

theorem act_inv (pre tl : List Head) (h : Head) (st : St) (log : List Ev)
    (hg : GInv (pre ++ h :: tl) st log) :
    GInv (pre ++ (actHead st h).1 :: tl) ((actHead st h).2.1)
      (log ++ evFor h (pre ++ h :: tl) st ((actHead st h).2.2)) := by
  obtain ⟨g1, g2, g3, g4, g5, g6, g7⟩ := hg
  have hmemh : h ∈ pre ++ h :: tl := List.mem_append_right _ (List.mem_cons_self _ _)
  rcases actHead_cases st h with ⟨heq, _⟩ | ⟨tx, hget, hn, hgas, heq⟩ |
    ⟨tx, hget, hn, hgas, heq⟩
  · rw [heq]
    show GInv (pre ++ h :: tl) st (log ++ [])
    rw [List.append_nil]
    exact ⟨g1, g2, g3, g4, g5, g6, g7⟩
  · -- admission of tx
    rw [heq]
    show GInv (pre ++ (⟨h.s, h.idx + 1, h.list⟩ : Head) :: tl)
      ⟨setNN h.s (tx.nonce + 1) st.nn, st.picked ++ [tx], st.gasLeft - tx.gas⟩
      (log ++ [Ev.adm tx (pre ++ h :: tl) st])
    have hsend : tx.sender = h.s := g3 h hmemh tx (List.getElem?_mem hget)
    have hmeq : countS h.s st.picked = h.idx := adm_idx_eq hget hn (g4 h hmemh) (g5 h hmemh)
    have hsep : ∀ h2 ∈ pre ++ tl, ¬ h2.s = h.s := sep_of_nodup g1
    obtain ⟨hA1, hA2, hA3, hA4⟩ := g5 h hmemh
    have hmap : ((pre ++ (⟨h.s, h.idx + 1, h.list⟩ : Head) :: tl).map Head.s) =
        ((pre ++ h :: tl).map Head.s) := by
      simp
    have hmemh' : (⟨h.s, h.idx + 1, h.list⟩ : Head) ∈
        pre ++ (⟨h.s, h.idx + 1, h.list⟩ : Head) :: tl :=
      List.mem_append_right _ (List.mem_cons_self _ _)
    have hnoskip : ∀ e ∈ log, ¬ evSkpSender e = some h.s := by
      intro e he hsk
      rcases g6 e he h.s hsk with ⟨h2, hm2, hs2, hlt⟩
      have hh : h2 = h := head_unique g1 hm2 hmemh hs2
      rw [hh, hmeq] at hlt
      omega
    refine ⟨?_, ?_, ?_, ?_, ?_, ?_, ?_⟩
    · rw [hmap]
      exact g1
    · intro t ht
      rcases List.mem_append.mp ht with ht | ht
      · rw [hmap]
        exact g2 t ht
      · have ht' : t = tx := by simpa using ht
        rw [ht', hsend]
        exact List.mem_map.mpr ⟨⟨h.s, h.idx + 1, h.list⟩, hmemh', rfl⟩
    · intro h2 hm2 t ht
      rcases mem_split pre tl _ h2 hm2 with rfl | hm2'
      · exact g3 h hmemh t ht
      · exact g3 h2 (mem_unsplit pre tl h h2 hm2') t ht
    · intro h2 hm2
      rcases mem_split pre tl _ h2 hm2 with rfl | hm2'
      · exact g4 h hmemh
      · exact g4 h2 (mem_unsplit pre tl h h2 hm2')
    · intro h2 hm2
      rcases mem_split pre tl _ h2 hm2 with rfl | hm2'
      · -- the acted head
        have hcount : countS h.s (st.picked ++ [tx]) = countS h.s st.picked + 1 :=
          countS_append_same hsend _
        refine ⟨?_, ?_, ?_, ?_⟩
        · show pickedS h.s (st.picked ++ [tx]) =
            h.list.take (countS h.s (st.picked ++ [tx]))
          rw [hcount, pickedS_append_same hsend, hA1, List.take_succ, hmeq, hget]
          rfl
        · show countS h.s (st.picked ++ [tx]) ≤ h.idx + 1
          rw [hcount, hmeq]
        · show lookupNN h.s (setNN h.s (tx.nonce + 1) st.nn) =
            headNonceD h.list + (countS h.s (st.picked ++ [tx]) : Int)
          rw [lookupNN_setNN_same, hcount, hn, hA3]
          push_cast
          ring
        · intro j t hj hjlt
          rw [hcount] at hjlt
          by_cases hjm : j < countS h.s st.picked
          · exact hA4 j t hj hjm
          · have hjeq : j = countS h.s st.picked := by omega
            rw [hjeq, hmeq] at hj
            rw [hget] at hj
            have ht' : t = tx := (Option.some.inj hj).symm
            rw [ht', hjeq, hn, hA3]
      · -- other heads
        have hne : ¬ h2.s = h.s := hsep h2 hm2'
        have htne : ¬ tx.sender = h2.s := by
          rw [hsend]
          intro hcon
          exact hne hcon.symm
        obtain ⟨hB1, hB2, hB3, hB4⟩ := g5 h2 (mem_unsplit pre tl h h2 hm2')
        refine ⟨?_, ?_, ?_, ?_⟩
        · show pickedS h2.s (st.picked ++ [tx]) =
            h2.list.take (countS h2.s (st.picked ++ [tx]))
          rw [pickedS_append_ne htne, countS_append_ne htne]
          exact hB1
        · rw [countS_append_ne htne]
          exact hB2
        · show lookupNN h2.s (setNN h.s (tx.nonce + 1) st.nn) =
            headNonceD h2.list + (countS h2.s (st.picked ++ [tx]) : Int)
          rw [lookupNN_setNN_ne h.s h2.s (tx.nonce + 1) (fun hcon => hne hcon.symm),
            countS_append_ne htne]
          exact hB3
        · intro j t hj hjlt
          rw [countS_append_ne htne] at hjlt
          exact hB4 j t hj hjlt
    · intro e he str hstr
      rcases List.mem_append.mp he with he | he
      · have hstrne : ¬ str = h.s := by
          intro hcon
          exact hnoskip e he (hcon ▸ hstr)
        rcases g6 e he str hstr with ⟨h2, hm2, hs2, hlt⟩
        rcases mem_split pre tl h h2 hm2 with rfl | hm2'
        · exact absurd hs2.symm hstrne
        · refine ⟨h2, mem_unsplit pre tl _ h2 hm2', hs2, ?_⟩
          rw [countS_append_ne (show ¬ tx.sender = str by
            rw [hsend]
            intro hcon
            exact hstrne hcon.symm)]
          exact hlt
      · have he' : e = Ev.adm tx (pre ++ h :: tl) st := by simpa using he
        rw [he'] at hstr
        exact absurd hstr (by simp [evSkpSender])
    · rw [List.pairwise_append]
      refine ⟨g7, List.pairwise_singleton _ _, ?_⟩
      intro e1 he1 e2 he2
      have he2' : e2 = Ev.adm tx (pre ++ h :: tl) st := by simpa using he2
      intro str hskp hadm
      rw [he2'] at hadm
      have hstx : tx.sender = str := Option.some.inj hadm
      rw [← hstx, hsend] at hskp
      exact hnoskip e1 he1 hskp
  · -- gas skip of tx
    rw [heq]
    show GInv (pre ++ (⟨h.s, h.idx + 1, h.list⟩ : Head) :: tl) st
      (log ++ [Ev.skp h.s tx (pre ++ h :: tl) st])
    have hsep : ∀ h2 ∈ pre ++ tl, ¬ h2.s = h.s := sep_of_nodup g1
    obtain ⟨hA1, hA2, hA3, hA4⟩ := g5 h hmemh
    have hmap : ((pre ++ (⟨h.s, h.idx + 1, h.list⟩ : Head) :: tl).map Head.s) =
        ((pre ++ h :: tl).map Head.s) := by
      simp
    have hmemh' : (⟨h.s, h.idx + 1, h.list⟩ : Head) ∈
        pre ++ (⟨h.s, h.idx + 1, h.list⟩ : Head) :: tl :=
      List.mem_append_right _ (List.mem_cons_self _ _)
    refine ⟨?_, ?_, ?_, ?_, ?_, ?_, ?_⟩
    · rw [hmap]
      exact g1
    · intro t ht
      rw [hmap]
      exact g2 t ht
    · intro h2 hm2 t ht
      rcases mem_split pre tl _ h2 hm2 with rfl | hm2'
      · exact g3 h hmemh t ht
      · exact g3 h2 (mem_unsplit pre tl h h2 hm2') t ht
    · intro h2 hm2
      rcases mem_split pre tl _ h2 hm2 with rfl | hm2'
      · exact g4 h hmemh
      · exact g4 h2 (mem_unsplit pre tl h h2 hm2')
    · intro h2 hm2
      rcases mem_split pre tl _ h2 hm2 with rfl | hm2'
      · exact ⟨hA1, hA2.trans (Nat.le_succ _), hA3, hA4⟩
      · exact g5 h2 (mem_unsplit pre tl h h2 hm2')
    · intro e he str hstr
      rcases List.mem_append.mp he with he | he
      · rcases g6 e he str hstr with ⟨h2, hm2, hs2, hlt⟩
        rcases mem_split pre tl h h2 hm2 with hEq | hm2'
        · subst hEq
          refine ⟨⟨h2.s, h2.idx + 1, h2.list⟩, hmemh', hs2, ?_⟩
          dsimp only at hlt ⊢
          omega
        · exact ⟨h2, mem_unsplit pre tl _ h2 hm2', hs2, hlt⟩
      · have he' : e = Ev.skp h.s tx (pre ++ h :: tl) st := by simpa using he
        have hstr' : str = h.s := by
          rw [he'] at hstr
          exact (Option.some.inj hstr).symm
        refine ⟨⟨h.s, h.idx + 1, h.list⟩, hmemh', by rw [hstr'], ?_⟩
        rw [hstr']
        dsimp only
        omega
    · rw [List.pairwise_append]
      refine ⟨g7, List.pairwise_singleton _ _, ?_⟩
      intro e1 he1 e2 he2 str hskp hadm
      have he2' : e2 = Ev.skp h.s tx (pre ++ h :: tl) st := by simpa using he2
      rw [he2'] at hadm
      exact absurd hadm (by simp [evAdmSender])

theorem passRec_inv (maxTxs : Int) :
    ∀ (rest pre : List Head) (st : St) (prog : Bool) (log : List Ev),
      GInv (pre ++ rest) st log →
      GInv (pre ++ (passRec maxTxs pre rest st prog log).1)
        (passRec maxTxs pre rest st prog log).2.1
        (passRec maxTxs pre rest st prog log).2.2.2 := by
  intro rest
  induction rest with
  | nil => intro pre st prog log hg; exact hg
  | cons h tl ih =>
    intro pre st prog log hg
    rw [passRec_cons]
    by_cases hc : (st.picked.length : Int) < maxTxs ∧ 0 < st.gasLeft
    · rw [if_pos hc]
      have h1 := act_inv pre tl h st log hg
      have h2 := ih (pre ++ [(actHead st h).1]) ((actHead st h).2.1)
        (prog || ((actHead st h).2.2).isSome)
        (log ++ evFor h (pre ++ h :: tl) st ((actHead st h).2.2))
        (by
          rw [← List.append_cons]
          exact h1)
      dsimp only
      rw [List.append_cons]
      exact h2
    · rw [if_neg hc]
      exact hg

theorem loopRec_inv (maxTxs : Int) :
    ∀ (fuel : Nat) (heads : List Head) (st : St) (log : List Ev),
      GInv heads st log →
      GInv (loopRec maxTxs fuel heads st log).1 (loopRec maxTxs fuel heads st log).2.1
        (loopRec maxTxs fuel heads st log).2.2 := by
  intro fuel
  induction fuel with
  | zero => intro heads st log hg; exact hg
  | succ fuel ih =>
    intro heads st log hg
    rw [loopRec_succ]
    by_cases hc : (st.picked.length : Int) < maxTxs ∧ 0 < st.gasLeft
    · rw [if_pos hc]
      have hp := passRec_inv maxTxs heads [] st false log hg
      by_cases hb : (passRec maxTxs [] heads st false log).2.2.1
      · rw [if_pos hb]
        exact ih _ _ _ hp
      · rw [if_neg hb]
        exact hp
    · rw [if_neg hc]
      exact hg

theorem init_GInv {txs : List Tx} (huniq : UniqNonces txs) (baseFee maxGas : Int) :
    GInv (headsInit txs baseFee) ⟨initNN txs baseFee, [], maxGas⟩ [] := by
  refine ⟨nodup_headsInit_senders txs baseFee, ?_, ?_, ?_, ?_, ?_, ?_⟩
  · intro t ht
    simp at ht
  · intro h hh t ht
    rw [headsInit_list hh] at ht
    unfold senderQueue at ht
    rw [List.mem_insertionSort] at ht
    simpa using (List.mem_filter.mp ht).2
  · intro h hh
    rw [headsInit_list hh]
    exact senderQueue_strict huniq baseFee h.s
  · intro h hh
    refine ⟨rfl, Nat.zero_le _, ?_, ?_⟩
    · show lookupNN h.s (initNN txs baseFee) = headNonceD h.list + (countS h.s [] : Int)
      rw [headsInit_nn hh]
      simp [countS, pickedS]
    · intro j t hj hjlt
      simp [countS, pickedS] at hjlt
  · intro e he
    simp at he
  · exact List.Pairwise.nil

theorem final_heads_list (p : SelectParams) :
    ∀ h ∈ (selectRun p).1, h.list = senderQueue p.txs p.baseFee h.s := by
  intro h hh
  have hmaps := loopRec_pairs p.maxTxs (loopFuel p) (headsInit p.txs p.baseFee)
    ⟨initNN p.txs p.baseFee, [], p.maxGas⟩ []
  have hmem : (h.s, h.list) ∈ ((selectRun p).1).map (fun h => (h.s, h.list)) :=
    List.mem_map_of_mem _ hh
  rw [show ((selectRun p).1).map (fun h => (h.s, h.list)) =
    ((headsInit p.txs p.baseFee).map (fun h => (h.s, h.list))) from hmaps] at hmem
  rcases List.mem_map.mp hmem with ⟨h0, hh0, hpair⟩
  have hs0 : h0.s = h.s := congrArg Prod.fst hpair
  have hl0 : h0.list = h.list := congrArg Prod.snd hpair
  rw [← hl0, ← hs0]
  exact headsInit_list hh0

instance (txs : List Tx) : Decidable (UniqNonces txs) :=
  inferInstanceAs
    (Decidable (txs.Pairwise (fun a b : Tx => a.sender = b.sender → a.nonce ≠ b.nonce)))

/-- C1: with per-sender-unique nonces, each sender's admitted subsequence
is a `take`-prefix of that sender's nonce-sorted eligible queue — hence it
is strictly increasing in `nonce`, no eligible nonce of that sender below
the last admitted nonce is skipped, and the transaction at position `k` of
the queue is admitted only when positions `0..k-1` were admitted earlier in
the same round. -/
theorem selectTxs_sender_order (p : SelectParams) (huniq : UniqNonces p.txs) (s : String) :
    ∃ m, pickedS s (selectTxs p).picked = (senderQueue p.txs p.baseFee s).take m ∧
      (pickedS s (selectTxs p).picked).Pairwise (fun a b => a.nonce < b.nonce) := by
  have hpick : (selectTxs p).picked = (loopRec p.maxTxs (loopFuel p)
      (headsInit p.txs p.baseFee) ⟨initNN p.txs p.baseFee, [], p.maxGas⟩ []).2.1.picked := rfl
  rw [hpick]
  obtain ⟨f1, f2, f3, f4, f5, f6, f7⟩ := loopRec_inv p.maxTxs (loopFuel p)
    (headsInit p.txs p.baseFee) ⟨initNN p.txs p.baseFee, [], p.maxGas⟩ []
    (init_GInv huniq p.baseFee p.maxGas)
  by_cases hs : ∃ h, h ∈ (loopRec p.maxTxs (loopFuel p) (headsInit p.txs p.baseFee)
      ⟨initNN p.txs p.baseFee, [], p.maxGas⟩ []).1 ∧ h.s = s
  · obtain ⟨h, hh, hhs⟩ := hs
    subst hhs
    have hlist : h.list = senderQueue p.txs p.baseFee h.s := final_heads_list p h hh
    obtain ⟨hA1, _, _, _⟩ := f5 h hh
    refine ⟨countS h.s (loopRec p.maxTxs (loopFuel p) (headsInit p.txs p.baseFee)
      ⟨initNN p.txs p.baseFee, [], p.maxGas⟩ []).2.1.picked, ?_, ?_⟩
    · rw [← hlist]
      exact hA1
    · rw [hA1]
      exact List.Pairwise.sublist (List.take_sublist _ _) (f4 h hh)
  · have hnil : pickedS s (loopRec p.maxTxs (loopFuel p) (headsInit p.txs p.baseFee)
        ⟨initNN p.txs p.baseFee, [], p.maxGas⟩ []).2.1.picked = [] := by
      rw [List.eq_nil_iff_forall_not_mem]
      intro t ht
      have ht2 := List.mem_filter.mp ht
      have hsend : t.sender = s := by simpa using ht2.2
      rcases List.mem_map.mp (f2 t ht2.1) with ⟨h, hh, hhs⟩
      exact hs ⟨h, hh, by rw [hhs, hsend]⟩
    refine ⟨0, ?_, ?_⟩
    · rw [hnil, List.take_zero]
    · rw [hnil]
      exact List.Pairwise.nil

/-- Witness for C1 at a concrete input. -/
theorem selectTxs_sender_order_witness :
    UniqNonces [⟨"a", "A", 1, 5, 0, 0⟩, ⟨"b", "A", 1, 6, 1, 0⟩] ∧
      ∃ m, pickedS "A"
          (selectTxs ⟨[⟨"a", "A", 1, 5, 0, 0⟩, ⟨"b", "A", 1, 6, 1, 0⟩], 0, 10, 10⟩).picked =
          (senderQueue [⟨"a", "A", 1, 5, 0, 0⟩, ⟨"b", "A", 1, 6, 1, 0⟩] 0 "A").take m ∧
        (pickedS "A"
          (selectTxs ⟨[⟨"a", "A", 1, 5, 0, 0⟩, ⟨"b", "A", 1, 6, 1, 0⟩], 0, 10, 10⟩).picked).Pairwise
          (fun a b => a.nonce < b.nonce) :=
  ⟨by decide,
   selectTxs_sender_order ⟨[⟨"a", "A", 1, 5, 0, 0⟩, ⟨"b", "A", 1, 6, 1, 0⟩], 0, 10, 10⟩
     (by decide) "A"⟩

/-- C10: with per-sender-unique nonces, each sender's admitted transactions
form a consecutive nonce run starting exactly at the sender's lowest
eligible nonce (the head of its queue); if the sender's eligible queue has
a nonce gap at position `g`, nothing at position `g + 1` or later is ever
admitted; and once a sender was gas-skipped (a `skp` event), no later event
admits a transaction of that sender in the same round. -/
theorem selectTxs_consecutive_run (p : SelectParams) (huniq : UniqNonces p.txs)
    (s : String) :
    ∃ m, pickedS s (selectTxs p).picked = (senderQueue p.txs p.baseFee s).take m ∧
      (∀ j t, (senderQueue p.txs p.baseFee s)[j]? = some t → j < m →
        t.nonce = headNonceD (senderQueue p.txs p.baseFee s) + j) ∧
      (∀ g t t', (senderQueue p.txs p.baseFee s)[g]? = some t →
        (senderQueue p.txs p.baseFee s)[g + 1]? = some t' →
        t'.nonce ≠ t.nonce + 1 → m ≤ g + 1) ∧
      (selectLog p).Pairwise (fun e1 e2 => evSkpSender e1 = some s →
        evAdmSender e2 = some s → False) := by
  have hpick : (selectTxs p).picked = (loopRec p.maxTxs (loopFuel p)
      (headsInit p.txs p.baseFee) ⟨initNN p.txs p.baseFee, [], p.maxGas⟩ []).2.1.picked := rfl
  have hlog : selectLog p = (loopRec p.maxTxs (loopFuel p)
      (headsInit p.txs p.baseFee) ⟨initNN p.txs p.baseFee, [], p.maxGas⟩ []).2.2 := rfl
  rw [hpick, hlog]
  obtain ⟨f1, f2, f3, f4, f5, f6, f7⟩ := loopRec_inv p.maxTxs (loopFuel p)
    (headsInit p.txs p.baseFee) ⟨initNN p.txs p.baseFee, [], p.maxGas⟩ []
    (init_GInv huniq p.baseFee p.maxGas)
  have hpw : (loopRec p.maxTxs (loopFuel p) (headsInit p.txs p.baseFee)
      ⟨initNN p.txs p.baseFee, [], p.maxGas⟩ []).2.2.Pairwise
      (fun e1 e2 => evSkpSender e1 = some s → evAdmSender e2 = some s → False) :=
    f7.imp (fun hr hskp hadm => hr s hskp hadm)
  by_cases hs : ∃ h, h ∈ (loopRec p.maxTxs (loopFuel p) (headsInit p.txs p.baseFee)
      ⟨initNN p.txs p.baseFee, [], p.maxGas⟩ []).1 ∧ h.s = s
  · obtain ⟨h, hh, hhs⟩ := hs
    subst hhs
    have hlist : h.list = senderQueue p.txs p.baseFee h.s := final_heads_list p h hh
    obtain ⟨hA1, hA2, hA3, hA4⟩ := f5 h hh
    rw [hlist] at hA1 hA4
    refine ⟨countS h.s (loopRec p.maxTxs (loopFuel p) (headsInit p.txs p.baseFee)
      ⟨initNN p.txs p.baseFee, [], p.maxGas⟩ []).2.1.picked, hA1, hA4, ?_, hpw⟩
    intro g t t' hg1 hg2 hne2
    by_contra hcon
    push_neg at hcon
    have h1 := hA4 g t hg1 (by omega)
    have h2 := hA4 (g + 1) t' hg2 (by omega)
    push_cast at h1 h2
    omega
  · have hnil : pickedS s (loopRec p.maxTxs (loopFuel p) (headsInit p.txs p.baseFee)
        ⟨initNN p.txs p.baseFee, [], p.maxGas⟩ []).2.1.picked = [] := by
      rw [List.eq_nil_iff_forall_not_mem]
      intro t ht
      have ht2 := List.mem_filter.mp ht
      have hsend : t.sender = s := by simpa using ht2.2
      rcases List.mem_map.mp (f2 t ht2.1) with ⟨h, hh, hhs⟩
      exact hs ⟨h, hh, by rw [hhs, hsend]⟩
    refine ⟨0, by rw [hnil, List.take_zero], ?_, ?_, hpw⟩
    · intro j t _ hjlt
      omega
    · intro g t t' _ _ _
      omega

/-- Witness for C10 at a concrete input. -/
theorem selectTxs_consecutive_run_witness :
    UniqNonces [⟨"a", "A", 1, 5, 0, 0⟩, ⟨"b", "A", 1, 6, 2, 0⟩] ∧
      ∃ m, pickedS "A"
          (selectTxs ⟨[⟨"a", "A", 1, 5, 0, 0⟩, ⟨"b", "A", 1, 6, 2, 0⟩], 0, 10, 10⟩).picked =
          (senderQueue [⟨"a", "A", 1, 5, 0, 0⟩, ⟨"b", "A", 1, 6, 2, 0⟩] 0 "A").take m ∧
        (∀ j t, (senderQueue [⟨"a", "A", 1, 5, 0, 0⟩, ⟨"b", "A", 1, 6, 2, 0⟩] 0 "A")[j]? =
            some t → j < m →
          t.nonce = headNonceD (senderQueue [⟨"a", "A", 1, 5, 0, 0⟩,
            ⟨"b", "A", 1, 6, 2, 0⟩] 0 "A") + j) ∧
        (∀ g t t', (senderQueue [⟨"a", "A", 1, 5, 0, 0⟩, ⟨"b", "A", 1, 6, 2, 0⟩] 0 "A")[g]? =
            some t →
          (senderQueue [⟨"a", "A", 1, 5, 0, 0⟩, ⟨"b", "A", 1, 6, 2, 0⟩] 0 "A")[g + 1]? =
            some t' →
          t'.nonce ≠ t.nonce + 1 → m ≤ g + 1) ∧
        (selectLog ⟨[⟨"a", "A", 1, 5, 0, 0⟩, ⟨"b", "A", 1, 6, 2, 0⟩], 0, 10, 10⟩).Pairwise
          (fun e1 e2 => evSkpSender e1 = some "A" → evAdmSender e2 = some "A" → False) :=
  ⟨by decide,
   selectTxs_consecutive_run ⟨[⟨"a", "A", 1, 5, 0, 0⟩, ⟨"b", "A", 1, 6, 2, 0⟩], 0, 10, 10⟩
     (by decide) "A"⟩

/-! ### Concrete scenario computations -/

/-- Scenario C input: sender `A` nonce 0 at price 5 (fee-ineligible) and
nonce 1 at price 50; constraints `baseFee = 10`, `maxGas = 1000`,
`maxTxs = 10`. -/
def scenC : SelectParams :=
  ⟨[⟨"a0", "A", 100, 5, 0, 0⟩, ⟨"a1", "A", 100, 50, 1, 0⟩], 10, 1000, 10⟩

/-- C3 counterexample: on the Scenario C input the engine does return
`eligibleCount = 1` but `picked` is NOT empty — filtering removes the
ineligible nonce-0 transaction before nonce ordering, so nonce 1 becomes
sender A's head and is admitted. -/
theorem scenC_picked_nonempty :
    (selectTxs scenC).eligibleCount = 1 ∧ (selectTxs scenC).picked ≠ [] := by
  decide

/-- C3 (amended): on the Scenario C input the engine returns
`eligibleCount = 1` and `picked = [nonce-1 transaction]` (with
`gasUsed = 100`, `avgPrice = 50`): the fee-ineligible predecessor does not
gate its successor, exactly the gap-permitting behaviour flagged in the
spec's §9 open question. -/
theorem scenC_gap_permitting :
    selectTxs scenC = ⟨[⟨"a1", "A", 100, 50, 1, 0⟩], 100, 50, 1⟩ := by
  decide

/-- Input with a negative gas budget. -/
def negGasParams : SelectParams := ⟨[⟨"t1", "A", 1, 1, 0, 0⟩], 0, -1, 10⟩

/-- Input holding a transaction with negative `gas`. -/
def negTxParams : SelectParams := ⟨[⟨"t1", "A", -5, 1, 0, 0⟩], 0, 10, 10⟩

/-- C4 counterexample: with `maxGas = -1` the engine silently returns an
ordinary empty `SelectionResult` instead of failing with
`InvalidConstraint`; and a transaction with negative `gas` raises no
`InvalidTransaction` error — it is even admitted (increasing the budget). -/
theorem selectTxs_no_error_cex :
    selectTxs negGasParams = ⟨[], 0, 0, 1⟩ ∧
      selectTxs negTxParams = ⟨[⟨"t1", "A", -5, 1, 0, 0⟩], -5, 1, 1⟩ := by
  decide

/-- Witness for the amended C4 at a concrete input. -/
theorem selectTxs_no_validation_witness :
    (negGasParams.maxGas < 0 ∨ negGasParams.maxTxs < 0) ∧
      ((selectTxs negGasParams).picked = [] ∧ (selectTxs negGasParams).gasUsed = 0 ∧
        (selectTxs negGasParams).avgPrice = 0 ∧
        (selectTxs negGasParams).eligibleCount =
          negGasParams.txs.countP (fun t => decide (negGasParams.baseFee ≤ t.price))) :=
  ⟨Or.inl (by decide), selectTxs_no_validation negGasParams (Or.inl (by decide))⟩

/-- Input whose two picked prices 1 and 2 have the non-integer mean 3/2. -/
def avgIn : SelectParams := ⟨[⟨"t1", "A", 1, 1, 0, 0⟩, ⟨"t2", "B", 1, 2, 0, 0⟩], 0, 10, 10⟩

/-- C5 counterexample: the reported `avgPrice` (2, the `Math.round` of 3/2)
differs from the exact arithmetic mean 3/2 of the picked prices. -/
theorem selectTxs_avgPrice_not_exact :
    ¬ ((selectTxs avgIn).avgPrice : ℚ) =
      (sumPrice (selectTxs avgIn).picked : ℚ) / ((selectTxs avgIn).picked.length : ℚ) := by
  have h1 : (selectTxs avgIn).avgPrice = 2 := by decide
  have h2 : sumPrice (selectTxs avgIn).picked = 3 := by decide
  have h3 : (selectTxs avgIn).picked.length = 2 := by decide
  rw [h1, h2, h3]
  norm_num

/-- Does an admission event violate current-head price priority, i.e. was
some other sender's currently admissible (nonce-expected, gas-fitting) head
strictly pricier than the admitted transaction at that moment? -/
def admViolation : Ev → Bool
  | .adm t heads st => heads.any (fun h =>
      (!(h.s == t.sender)) &&
      (match h.list[h.idx]? with
       | some tx => decide (tx.nonce = lookupNN h.s st.nn) && decide (tx.gas ≤ st.gasLeft) &&
            decide (t.price < tx.price)
       | none => false))
  | .skp _ _ _ _ => false

/-- Input refuting re-evaluated head priority: after A's cheap nonce-0 tx
is admitted, A's head advances to a 200-price tx, yet B's 90-price head is
admitted next because the heads order was fixed up front. -/
def prioIn : SelectParams :=
  ⟨[⟨"a0", "A", 1, 100, 0, 0⟩, ⟨"a1", "A", 1, 200, 1, 0⟩, ⟨"b0", "B", 1, 90, 0, 0⟩,
    ⟨"c0", "C", 1, 80, 0, 0⟩], 0, 10, 10⟩

/-- C6 counterexample: the run on `prioIn` contains an admission event at
whose moment another sender's admissible head had a strictly higher price —
head priority is not re-evaluated as heads advance. -/
theorem selectTxs_head_priority_cex :
    (selectLog prioIn).any admViolation = true := by
  decide

/-- Input with two equal-price heads where the tie is NOT broken by nonce:
sender A's head has nonce 7 and sender B's head has nonce 3, both at price
10, but A is considered first because A's first occurrence in the
price-sorted eligible list (its price-30 transaction) precedes B's. -/
def tieIn : SelectParams :=
  ⟨[⟨"a7", "A", 1, 10, 7, 0⟩, ⟨"a8", "A", 1, 30, 8, 0⟩, ⟨"b3", "B", 1, 10, 3, 0⟩], 0, 100, 10⟩

/-- C7 counterexample: the two heads carry equal price 10 with nonces 7
(sender A) and 3 (sender B), yet the engine considers and admits the
nonce-7 head first — the tie is not broken by lower nonce. -/
theorem selectTxs_tie_cex :
    (headsInit tieIn.txs tieIn.baseFee).map
        (fun h => (h.s, headPriceD h.list, headNonceD h.list)) =
      [("A", 10, 7), ("B", 10, 3)] ∧
    (selectTxs tieIn).picked = [⟨"a7", "A", 1, 10, 7, 0⟩, ⟨"b3", "B", 1, 10, 3, 0⟩,
      ⟨"a8", "A", 1, 30, 8, 0⟩] := by
  constructor
  · decide
  · decide

/-! ### Tie-break order of the heads -/

theorem headPriceD_eq {l : List Tx} {t : Tx} (h : l.head? = some t) :
    headPriceD l = t.price := by
  unfold headPriceD
  rw [h]
  rfl

theorem groupErase_of_not_mem {s : String} :
    ∀ {m : List (String × List Tx)}, s ∉ m.map Prod.fst → groupErase s m = m := by
  intro m
  induction m with
  | nil => intro _; rfl
  | cons e rest ih =>
    intro hs
    simp only [List.map_cons, List.mem_cons] at hs
    push_neg at hs
    show (if e.1 = s then groupErase s rest else (e.1, e.2) :: groupErase s rest) = e :: rest
    rw [if_neg (fun hcon => hs.1 hcon.symm), ih hs.2]

theorem groupBySender_singletons :
    ∀ {l : List Tx}, l.Pairwise (fun a b => a.sender ≠ b.sender) →
      groupBySender l = l.map (fun t => (t.sender, [t])) := by
  intro l
  induction l with
  | nil => intro _; rfl
  | cons t ts ih =>
    intro hp
    rcases List.pairwise_cons.mp hp with ⟨hhead, htail⟩
    have hnotmem : t.sender ∉ (groupBySender ts).map Prod.fst := by
      rw [mem_keys_groupBySender]
      intro hmem
      rcases List.mem_map.mp hmem with ⟨u, hu, hus⟩
      exact hhead u hu hus.symm
    have hget : groupGet t.sender (groupBySender ts) = [] := by
      rw [groupGet_groupBySender, List.filter_eq_nil_iff]
      intro u hu
      simp only [decide_eq_true_eq]
      intro hcon
      exact hhead u hu hcon.symm
    show (t.sender, t :: groupGet t.sender (groupBySender ts)) ::
      groupErase t.sender (groupBySender ts) = (t.sender, [t]) :: ts.map (fun u => (u.sender, [u]))
    rw [hget, groupErase_of_not_mem hnotmem, ih htail]

/-- Numeric value of a digit string, most significant digit first. -/
def digitsVal (cs : List Char) : Nat := cs.foldl (fun n c => 10 * n + (c.toNat - 48)) 0

/-- ECMA-262 array-index test for an object key: the canonical decimal
representation (digits only, no leading zero except for the single digit
zero itself) of an integer below `2^32 - 1`.  Ordinary-object
`[[OwnPropertyKeys]]` — and hence `Object.entries`, used at lines 91 and
96 — iterates such keys first, in ascending numeric order; all remaining
string keys follow in insertion (first-occurrence) order, the regime
`groupBySender` models. -/
def isArrayIndexKey (s : String) : Bool :=
  (!s.data.isEmpty) && s.data.all Char.isDigit &&
    (s.data.map Char.toNat == [48] || (s.data.head?.map Char.toNat) != some 48) &&
    decide (digitsVal s.data < 4294967295)

/-- C7 (amended): price ties between heads are broken by the object key
iteration order of the sender groups, not by head nonce.  For pools whose
senders are not array-index-like strings (e.g. the page's `0x…` senders) —
the regime in which `Object.entries` iterates keys in first-occurrence
order, the one `groupBySender` models exactly — the tie goes to the sender
occurring first in the price-desc/nonce-asc-sorted eligible list; when
additionally every transaction comes from a distinct sender, so each head
is its sender's highest-price transaction, equal-price heads appear in the
scan order `headsInit` with nonces ascending.  (For array-index-like
sender keys the program's tie order instead follows ascending numeric key
order.) -/
theorem headsInit_tie_nonce (txs : List Tx) (baseFee : Int)
    (hkeys : ∀ t ∈ txs, isArrayIndexKey t.sender = false)
    (hsend : txs.Pairwise (fun a b => a.sender ≠ b.sender)) :
    (headsInit txs baseFee).Pairwise
      (fun h1 h2 => headPriceD h1.list = headPriceD h2.list →
        headNonceD h1.list ≤ headNonceD h2.list) := by
  have h1 : (txs.filter (fun t => baseFee ≤ t.price)).Pairwise
      (fun a b => a.sender ≠ b.sender) := hsend.filter _
  have h2 : (eligibleOf txs baseFee).Pairwise (fun a b => a.sender ≠ b.sender) :=
    ((List.perm_insertionSort priceDescRel _).pairwise_iff (fun h => h.symm)).mpr h1
  have h4 : senderLists txs baseFee = (eligibleOf txs baseFee).map (fun t => (t.sender, [t])) := by
    unfold senderLists
    rw [groupBySender_singletons h2, List.map_map]
    rfl
  have h5 : headsInit txs baseFee =
      (eligibleOf txs baseFee).map (fun t => (⟨t.sender, 0, [t]⟩ : Head)) := by
    unfold headsInit
    rw [h4, List.map_map]
    show List.insertionSort headRel
      ((eligibleOf txs baseFee).map (fun t => (⟨t.sender, 0, [t]⟩ : Head))) = _
    refine List.Sorted.insertionSort_eq ?_
    rw [List.Sorted, List.pairwise_map]
    refine (List.sorted_insertionSort priceDescRel (txs.filter (fun t => baseFee ≤ t.price))).imp
      ?_
    intro a b hab
    show headPriceD [b] ≤ headPriceD [a]
    show b.price ≤ a.price
    rcases hab with h | ⟨h, _⟩
    · exact le_of_lt h
    · exact le_of_eq h.symm
  rw [h5, List.pairwise_map]
  refine (List.sorted_insertionSort priceDescRel (txs.filter (fun t => baseFee ≤ t.price))).imp
    ?_
  intro a b hab
  show headPriceD [a] = headPriceD [b] → headNonceD [a] ≤ headNonceD [b]
  show a.price = b.price → a.nonce ≤ b.nonce
  intro heqp
  rcases hab with h | ⟨_, h⟩
  · exact absurd heqp (ne_of_gt h)
  · exact h

/-- Witness for the amended C7 at a concrete input. -/
theorem headsInit_tie_nonce_witness :
    (∀ t ∈ ([⟨"x", "A", 1, 10, 4, 0⟩, ⟨"y", "B", 1, 10, 2, 0⟩] : List Tx),
        isArrayIndexKey t.sender = false) ∧
      ([⟨"x", "A", 1, 10, 4, 0⟩, ⟨"y", "B", 1, 10, 2, 0⟩] : List Tx).Pairwise
        (fun a b => a.sender ≠ b.sender) ∧
      (headsInit [⟨"x", "A", 1, 10, 4, 0⟩, ⟨"y", "B", 1, 10, 2, 0⟩] 0).Pairwise
        (fun h1 h2 => headPriceD h1.list = headPriceD h2.list →
          headNonceD h1.list ≤ headNonceD h2.list) :=
  ⟨by decide, by decide,
   headsInit_tie_nonce [⟨"x", "A", 1, 10, 4, 0⟩, ⟨"y", "B", 1, 10, 2, 0⟩] 0
     (by decide) (by decide)⟩

/-! ### First-admission priority -/

theorem head?_append_left {l l' : List Tx} {a : Tx} (h : l.head? = some a) :
    (l ++ l').head? = some a := by
  cases l with
  | nil => simp at h
  | cons x xs =>
    have hx : x = a := by simpa using h
    rw [hx]
    rfl

theorem passRec_picked_head (maxTxs : Int) :
    ∀ (rest pre : List Head) (st : St) (prog : Bool) (log : List Ev) {a : Tx},
      st.picked.head? = some a →
      (passRec maxTxs pre rest st prog log).2.1.picked.head? = some a := by
  intro rest pre st prog log a h
  obtain ⟨suf, hsuf⟩ := passRec_picked_extends maxTxs rest pre st prog log
  rw [hsuf]
  exact head?_append_left h

theorem blocked_pass (maxTxs : Int) :
    ∀ (rest pre : List Head) (st : St) (prog : Bool) (log : List Ev),
      (∀ h ∈ rest, ∀ tx, h.list[h.idx]? = some tx → ¬ tx.nonce = lookupNN h.s st.nn) →
      passRec maxTxs pre rest st prog log = (rest, st, prog, log) := by
  intro rest
  induction rest with
  | nil => intro pre st prog log _; rfl
  | cons h tl ih =>
    intro pre st prog log hbk
    rw [passRec_cons]
    by_cases hc : (st.picked.length : Int) < maxTxs ∧ 0 < st.gasLeft
    · rw [if_pos hc]
      have heq : actHead st h = (h, st, none) := by
        rcases actHead_cases st h with ⟨heq, _⟩ | ⟨tx, hget, hn, _, _⟩ |
          ⟨tx, hget, hn, _, _⟩
        · exact heq
        · exact absurd hn (hbk h (List.mem_cons_self _ _) tx hget)
        · exact absurd hn (hbk h (List.mem_cons_self _ _) tx hget)
      rw [heq]
      simp only [evFor, Option.isSome_none, Bool.or_false, List.append_nil]
      rw [ih (pre ++ [h]) st prog log (fun h2 hm2 => hbk h2 (List.mem_cons_of_mem _ hm2))]
    · rw [if_neg hc]

theorem blocked_loop (maxTxs : Int) :
    ∀ (fuel : Nat) (heads : List Head) (st : St) (log : List Ev),
      (∀ h ∈ heads, ∀ tx, h.list[h.idx]? = some tx → ¬ tx.nonce = lookupNN h.s st.nn) →
      loopRec maxTxs fuel heads st log = (heads, st, log) := by
  intro fuel
  induction fuel with
  | zero => intro heads st log _; rfl
  | succ fuel ih =>
    intro heads st log hbk
    rw [loopRec_succ]
    by_cases hc : (st.picked.length : Int) < maxTxs ∧ 0 < st.gasLeft
    · rw [if_pos hc, blocked_pass maxTxs heads [] st false log hbk]
      rfl
    · rw [if_neg hc]

theorem pass_first_pick (maxTxs maxGas : Int) (hmt : (0 : Int) < maxTxs)
    (hmg : (0 : Int) < maxGas) :
    ∀ (rest : List Head) (pre : List Head) (nn : List (String × Int)) (prog : Bool)
      (log : List Ev),
      (∀ h ∈ rest, h.idx = 0) →
      (∀ h ∈ rest, ∀ t0, h.list.head? = some t0 → lookupNN h.s nn = t0.nonce) →
      rest.Pairwise headRel →
      ((passRec maxTxs pre rest ⟨nn, [], maxGas⟩ prog log).2.1.picked = [] ∧
        (passRec maxTxs pre rest ⟨nn, [], maxGas⟩ prog log).2.1.nn = nn ∧
        (passRec maxTxs pre rest ⟨nn, [], maxGas⟩ prog log).2.1.gasLeft = maxGas ∧
        (∀ h ∈ (passRec maxTxs pre rest ⟨nn, [], maxGas⟩ prog log).1,
          (h.idx = 0 ∧ h.list = []) ∨
          (h.idx = 1 ∧ ∀ t0, h.list.head? = some t0 → maxGas < t0.gas))) ∨
      (∃ t, (passRec maxTxs pre rest ⟨nn, [], maxGas⟩ prog log).2.1.picked.head? = some t ∧
        ∀ h ∈ rest, ∀ t0, h.list.head? = some t0 → t0.gas ≤ maxGas → t0.price ≤ t.price) := by
  intro rest
  induction rest with
  | nil =>
    intro pre nn prog log _ _ _
    exact Or.inl ⟨rfl, rfl, rfl, fun h hm => absurd hm (List.not_mem_nil h)⟩
  | cons h tl ih =>
    intro pre nn prog log hidx hF1 hsorted
    have hidx0 : h.idx = 0 := hidx h (List.mem_cons_self _ _)
    have hc : (((⟨nn, [], maxGas⟩ : St).picked.length : Int) < maxTxs ∧
        0 < (⟨nn, [], maxGas⟩ : St).gasLeft) := by
      constructor
      · simpa using hmt
      · exact hmg
    rw [passRec_cons, if_pos hc]
    rcases actHead_cases ⟨nn, [], maxGas⟩ h with ⟨heq, hor⟩ | ⟨tx, hget, hn, hgas, heq⟩ |
      ⟨tx, hget, hn, hgas, heq⟩
    · rcases hor with hnone | ⟨tx, hget, hne⟩
      · -- exhausted head: the list is empty
        have hlist : h.list = [] := by
          rw [hidx0] at hnone
          have := List.getElem?_eq_none_iff.mp hnone
          exact List.eq_nil_of_length_eq_zero (by omega)
        rw [heq]
        dsimp only
        simp only [evFor, Option.isSome_none, Bool.or_false, List.append_nil]
        rcases ih (pre ++ [h]) nn prog log
          (fun h2 hm2 => hidx h2 (List.mem_cons_of_mem _ hm2))
          (fun h2 hm2 => hF1 h2 (List.mem_cons_of_mem _ hm2))
          ((List.pairwise_cons.mp hsorted).2) with hA | hB
        · refine Or.inl ⟨hA.1, hA.2.1, hA.2.2.1, ?_⟩
          intro h2 hm2
          rcases List.mem_cons.mp hm2 with rfl | hm2
          · exact Or.inl ⟨hidx0, hlist⟩
          · exact hA.2.2.2 h2 hm2
        · obtain ⟨t, hth, hprop⟩ := hB
          refine Or.inr ⟨t, hth, ?_⟩
          intro h2 hm2 t0 ht0 hg0
          rcases List.mem_cons.mp hm2 with rfl | hm2
          · rw [hlist] at ht0
            simp at ht0
          · exact hprop h2 hm2 t0 ht0 hg0
      · -- a nonce mismatch at a fresh head is impossible
        have hhead : h.list.head? = some tx := by
          rw [List.head?_eq_getElem?, ← hidx0]
          exact hget
        exact absurd ((hF1 h (List.mem_cons_self _ _) tx hhead).symm) hne
    · -- the first admission
      have hhead : h.list.head? = some tx := by
        rw [List.head?_eq_getElem?, ← hidx0]
        exact hget
      rw [heq]
      dsimp only
      simp only [evFor, Option.isSome_some, Bool.or_true]
      refine Or.inr ⟨tx, ?_, ?_⟩
      · exact passRec_picked_head maxTxs _ _ _ _ _ rfl
      · intro h2 hm2 t0 ht0 hg0
        rcases List.mem_cons.mp hm2 with rfl | hm2
        · have ht0tx : t0 = tx := by
            rw [ht0] at hhead
            exact Option.some.inj hhead
          rw [ht0tx]
        · have hrel : headRel h h2 := (List.pairwise_cons.mp hsorted).1 h2 hm2
          rw [← headPriceD_eq ht0, ← headPriceD_eq hhead]
          exact hrel
    · -- the head is gas-skipped; the state is unchanged
      have hhead : h.list.head? = some tx := by
        rw [List.head?_eq_getElem?, ← hidx0]
        exact hget
      have hbig : maxGas < tx.gas := by
        have : ¬ tx.gas ≤ maxGas := hgas
        omega
      rw [heq]
      dsimp only
      simp only [evFor, Option.isSome_some, Bool.or_true]
      rcases ih (pre ++ [⟨h.s, h.idx + 1, h.list⟩]) nn true
        (log ++ [Ev.skp h.s tx (pre ++ h :: tl) ⟨nn, [], maxGas⟩])
        (fun h2 hm2 => hidx h2 (List.mem_cons_of_mem _ hm2))
        (fun h2 hm2 => hF1 h2 (List.mem_cons_of_mem _ hm2))
        ((List.pairwise_cons.mp hsorted).2) with hA | hB
      · refine Or.inl ⟨hA.1, hA.2.1, hA.2.2.1, ?_⟩
        intro h2 hm2
        rcases List.mem_cons.mp hm2 with rfl | hm2
        · refine Or.inr ⟨by rw [hidx0], ?_⟩
          intro t0 ht0
          have ht0tx : t0 = tx := by
            rw [ht0] at hhead
            exact Option.some.inj hhead
          rw [ht0tx]
          exact hbig
        · exact hA.2.2.2 h2 hm2
      · obtain ⟨t, hth, hprop⟩ := hB
        refine Or.inr ⟨t, hth, ?_⟩
        intro h2 hm2 t0 ht0 hg0
        rcases List.mem_cons.mp hm2 with rfl | hm2
        · have ht0tx : t0 = tx := by
            rw [ht0] at hhead
            exact Option.some.inj hhead
          rw [ht0tx] at hg0
          omega
        · exact hprop h2 hm2 t0 ht0 hg0

/-- C6 (amended): the heads are scanned in an order fixed once from each
sender's initial head price; priority is not re-evaluated as heads advance
(the counterexample exhibits an admission with a strictly pricier
admissible head elsewhere).  What does hold is priority at the first
admission: with per-sender-unique nonces, the first admitted transaction's
price is at least the price of every initial head transaction that fits
within `maxGas`. -/
theorem selectTxs_first_pick_priority (p : SelectParams) (huniq : UniqNonces p.txs)
    (t : Tx) (ht : (selectTxs p).picked.head? = some t) :
    ∀ h ∈ headsInit p.txs p.baseFee, ∀ t0, h.list.head? = some t0 →
      t0.gas ≤ p.maxGas → t0.price ≤ t.price := by
  intro h hh t0 ht0 hg0
  have hpick : (selectTxs p).picked = (loopRec p.maxTxs
      (measureHeads (headsInit p.txs p.baseFee) + 1)
      (headsInit p.txs p.baseFee) ⟨initNN p.txs p.baseFee, [], p.maxGas⟩ []).2.1.picked := rfl
  rw [hpick, loopRec_succ] at ht
  by_cases hpos : (0 : Int) < p.maxTxs ∧ 0 < p.maxGas
  · rw [if_pos (by simpa using hpos)] at ht
    rcases pass_first_pick p.maxTxs p.maxGas hpos.1 hpos.2 (headsInit p.txs p.baseFee) []
      (initNN p.txs p.baseFee) false []
      (fun h2 hm2 => headsInit_idx hm2)
      (fun h2 hm2 t2 ht2 => by
        rw [headsInit_nn hm2]
        rw [List.head?_eq_getElem?] at ht2
        exact headNonceD_eq ht2)
      (sorted_headsInit p.txs p.baseFee) with hA | hB
    · obtain ⟨hA1, hA2, hA3, hA4⟩ := hA
      have hpairs := passRec_pairs p.maxTxs (headsInit p.txs p.baseFee) []
        ⟨initNN p.txs p.baseFee, [], p.maxGas⟩ false []
      have hblocked : ∀ h2 ∈ (passRec p.maxTxs [] (headsInit p.txs p.baseFee)
          ⟨initNN p.txs p.baseFee, [], p.maxGas⟩ false []).1, ∀ tx,
          h2.list[h2.idx]? = some tx →
          ¬ tx.nonce = lookupNN h2.s (passRec p.maxTxs [] (headsInit p.txs p.baseFee)
            ⟨initNN p.txs p.baseFee, [], p.maxGas⟩ false []).2.1.nn := by
        intro h2 hm2 tx hget2 hcon
        have hmm : (h2.s, h2.list) ∈ ((passRec p.maxTxs [] (headsInit p.txs p.baseFee)
            ⟨initNN p.txs p.baseFee, [], p.maxGas⟩ false []).1).map
            (fun h3 => (h3.s, h3.list)) := List.mem_map_of_mem _ hm2
        rw [hpairs] at hmm
        rcases List.mem_map.mp hmm with ⟨h0, hh0, hp0⟩
        have hs0 : h0.s = h2.s := congrArg Prod.fst hp0
        have hl0 : h0.list = h2.list := congrArg Prod.snd hp0
        rcases hA4 h2 hm2 with ⟨hi0, hl0'⟩ | ⟨hi1, hbig⟩
        · rw [hi0, hl0'] at hget2
          simp at hget2
        · rw [hi1] at hget2
          rw [hA2] at hcon
          have hnn : lookupNN h2.s (initNN p.txs p.baseFee) = headNonceD h2.list := by
            rw [← hs0, ← hl0]
            exact headsInit_nn hh0
          rw [hnn] at hcon
          have hlen : 1 < h2.list.length := (List.getElem?_eq_some_iff.mp hget2).1
          obtain ⟨t00, hget0⟩ : ∃ t00, h2.list[0]? = some t00 := by
            rw [List.getElem?_eq_getElem (by omega : 0 < h2.list.length)]
            exact ⟨_, rfl⟩
          have hstrict : StrictQ h2.list := by
            rw [← hl0, headsInit_list hh0]
            exact senderQueue_strict huniq p.baseFee h0.s
          have hlt := strict_lt hstrict hget0 hget2 (by omega)
          rw [headNonceD_eq hget0] at hcon
          omega
      by_cases hprog : (passRec p.maxTxs [] (headsInit p.txs p.baseFee)
          ⟨initNN p.txs p.baseFee, [], p.maxGas⟩ false []).2.2.1 = true
      · rw [if_pos hprog, blocked_loop p.maxTxs _ _ _ _ hblocked] at ht
        dsimp only at ht
        rw [hA1] at ht
        simp at ht
      · rw [if_neg hprog] at ht
        dsimp only at ht
        rw [hA1] at ht
        simp at ht
    · obtain ⟨t', hth, hprop⟩ := hB
      by_cases hprog : (passRec p.maxTxs [] (headsInit p.txs p.baseFee)
          ⟨initNN p.txs p.baseFee, [], p.maxGas⟩ false []).2.2.1 = true
      · rw [if_pos hprog] at ht
        obtain ⟨suf, hsuf⟩ := loopRec_picked_extends p.maxTxs
          (measureHeads (headsInit p.txs p.baseFee))
          (passRec p.maxTxs [] (headsInit p.txs p.baseFee)
            ⟨initNN p.txs p.baseFee, [], p.maxGas⟩ false []).1
          (passRec p.maxTxs [] (headsInit p.txs p.baseFee)
            ⟨initNN p.txs p.baseFee, [], p.maxGas⟩ false []).2.1
          (passRec p.maxTxs [] (headsInit p.txs p.baseFee)
            ⟨initNN p.txs p.baseFee, [], p.maxGas⟩ false []).2.2.2
        rw [hsuf, head?_append_left hth] at ht
        rw [← Option.some.inj ht]
        exact hprop h hh t0 ht0 hg0
      · rw [if_neg hprog] at ht
        dsimp only at ht
        rw [hth] at ht
        rw [← Option.some.inj ht]
        exact hprop h hh t0 ht0 hg0
  · rw [if_neg (by simpa using hpos)] at ht
    simp at ht

/-- Witness for the amended C6 at a concrete input. -/
theorem selectTxs_first_pick_priority_witness :
    UniqNonces [⟨"w", "A", 1, 5, 0, 0⟩] ∧
      (selectTxs ⟨[⟨"w", "A", 1, 5, 0, 0⟩], 0, 10, 10⟩).picked.head? =
        some ⟨"w", "A", 1, 5, 0, 0⟩ ∧
      (∀ h ∈ headsInit [⟨"w", "A", 1, 5, 0, 0⟩] 0, ∀ t0, h.list.head? = some t0 →
        t0.gas ≤ (10 : Int) → t0.price ≤ (⟨"w", "A", 1, 5, 0, 0⟩ : Tx).price) :=
  ⟨by decide, by decide,
   selectTxs_first_pick_priority ⟨[⟨"w", "A", 1, 5, 0, 0⟩], 0, 10, 10⟩ (by decide)
     ⟨"w", "A", 1, 5, 0, 0⟩ (by decide)⟩
